import Mathlib

/-!
Shallow embedding of the edit-xml crate (arena-based XML document model:
document/element/node store, tree mutation, namespace resolution, the
event-driven parser's attribute/namespace splitting and text policy, and
the serializer's event emission), together with theorems checking the
natural-language specification against it.

Strings are modelled as byte lists (`Str := List Nat`), since the source
operates on UTF-8 byte slices (`&[u8]`, `String`): byte-level operations
such as `normalize_space`, `is_xlmns` and `escape_ascii` are defined on
bytes in the source.
-/

namespace EditXml

deriving instance DecidableEq for Except

/-- Byte strings: the model of Rust `String` / `&[u8]` payloads. -/
abbrev Str := List Nat

/-- ASCII bytes of a Lean string literal (used only for ASCII literals). -/
def bytes (s : String) : Str := s.toList.map Char.toNat

/-- Error type: the subset of `EditXMLError` / `MalformedReason` (src/error.rs)
reachable by the modelled operations.  `panicArtifact` stands for a Rust
panic (`unwrap` on an invalid handle or an out-of-bounds index); it is not a
member of `EditXMLError` and no claim is settled on a path that reaches it. -/
inductive Err where
  | HasAParent
  | ContainerCannotMove
  | InvalidStandAloneValue
  | UnexpectedDecl
  | GenericMalformedTree
  | MissingClosingTag
  | MissingDeclaration
  | MissingEncoding
  | EscapeError
  | panicArtifact
  deriving DecidableEq, Repr

/-- Model of `StandaloneValue` (src/types/mod.rs). -/
inductive StandaloneValue where
  | yes
  | no
  deriving DecidableEq, Repr

/-- Model of `StandaloneValue::as_bytes` (src/types/mod.rs). -/
def StandaloneValue.asBytes : StandaloneValue → Str
  | .yes => bytes "yes"
  | .no => bytes "no"

/-- Model of `StandaloneValue::try_from(&[u8])` (src/types/mod.rs lines 30-39):
the byte-slice patterns `b"yes"` / `b"no"` match exactly those byte strings,
everything else is `InvalidStandAloneValue`. -/
def StandaloneValue.tryFromBytes (v : Str) : Except Err StandaloneValue :=
  if v = bytes "yes" then .ok .yes
  else if v = bytes "no" then .ok .no
  else .error .InvalidStandAloneValue

/-- Model of `Node` (src/document/node.rs): element handles are the raw
`usize` ids of `Element`. -/
inductive Node where
  | Element (id : Nat)
  | Text (s : Str)
  | Comment (s : Str)
  | CData (s : Str)
  | PI (s : Str)
  | DocType (s : Str)
  deriving DecidableEq, Repr

/-- Model of `Node::as_element` (src/document/node.rs). -/
def Node.asElement : Node → Option Nat
  | .Element id => some id
  | _ => none

/-- Association-list model of the `HashMap<String, String>` fields: insertion
replaces the value of an existing key and otherwise appends (Rust `HashMap`
iteration order is unspecified; no claim depends on it). -/
abbrev AList := List (Str × Str)

/-- Map insertion, last write wins on duplicate keys (Rust `HashMap::insert`). -/
def alInsert (k v : Str) : AList → AList
  | [] => [(k, v)]
  | (k0, v0) :: rest => if k0 = k then (k, v) :: rest else (k0, v0) :: alInsert k v rest

/-- Map lookup (Rust `HashMap::get`). -/
def alGet (m : AList) (k : Str) : Option Str :=
  (m.find? (fun kv => kv.1 = k)).map Prod.snd

/-- Model of `ElementData` (src/element.rs lines 5-12). -/
structure ElementData where
  fullName : Str
  attributes : AList
  namespaceDecls : AList
  parent : Option Nat
  children : List Node
  deriving DecidableEq, Repr

/-- Model of `Document` (src/document.rs lines 50-58).  The container handle
field is constant `Element { id: 0 }` in the source and is left implicit. -/
structure Document where
  counter : Nat
  store : List ElementData
  version : Str
  standalone : Option StandaloneValue
  deriving DecidableEq, Repr

/-- Model of `Element::container`'s record (src/element.rs lines 201-211). -/
def containerData : ElementData :=
  { fullName := [], attributes := [], namespaceDecls := [], parent := none, children := [] }

/-- Model of `Document::default` / `Document::new` (src/document.rs lines 59-75). -/
def Document.new : Document :=
  { counter := 1, store := [containerData], version := bytes "1.0", standalone := none }

/-- Model of `Document::new_with_store_size` (src/document.rs lines 76-87):
the size argument only pre-allocates capacity, which a list model does not
represent, so the resulting document equals `Document.new`. -/
def Document.newWithStoreSize (_size : Nat) : Document := Document.new

/-- Model of `Element::data` (src/element.rs line 238): `store.get(id)`; the
source unwraps, so `none` marks the panic path. -/
def getData (doc : Document) (id : Nat) : Option ElementData :=
  doc.store[id]?

/-- Store update at a handle (the write-back of `Element::mut_data`). -/
def setData (doc : Document) (id : Nat) (d : ElementData) : Document :=
  { doc with store := doc.store.set id d }

/-- Update the record at a handle when it exists (no-op on an invalid handle,
where the source would panic). -/
def modifyData (doc : Document) (id : Nat) (f : ElementData → ElementData) : Document :=
  match getData doc id with
  | none => doc
  | some d => setData doc id (f d)

/-- Model of `Element::children` (src/element.rs line 442) as a plain list
(empty on the panic path of an invalid handle). -/
def childrenOf (doc : Document) (id : Nat) : List Node :=
  match getData doc id with
  | none => []
  | some d => d.children

/-- Model of `Element::with_data` (src/element.rs lines 181-198) and the
equivalent `Document::push_to_store` (src/document.rs lines 159-165): append
a fresh record with no parent and no children, handle = old counter. -/
def withData (doc : Document) (fullName : Str) (attrs nsd : AList) : Nat × Document :=
  let d : ElementData :=
    { fullName := fullName, attributes := attrs, namespaceDecls := nsd,
      parent := none, children := [] }
  (doc.counter, { doc with store := doc.store ++ [d], counter := doc.counter + 1 })

/-- Model of `Element::push_child` (src/element.rs lines 529-542).  The pair
carries the `Result` together with the final document, since the source
mutates the document in place; on the error paths the source returns before
touching the document. -/
def pushChild (doc : Document) (parent : Nat) (node : Node) : Except Err Unit × Document :=
  match node with
  | .Element eid =>
    if eid = 0 then (.error .ContainerCannotMove, doc)
    else
      match getData doc eid with
      | none => (.error .panicArtifact, doc)
      | some d =>
        if d.parent.isSome then (.error .HasAParent, doc)
        else
          let doc1 := setData doc eid { d with parent := some parent }
          (.ok (), modifyData doc1 parent (fun p => { p with children := p.children ++ [node] }))
  | _ => (.ok (), modifyData doc parent (fun p => { p with children := p.children ++ [node] }))

/-- Model of `Element::insert_child` (src/element.rs lines 566-579): the same
checks as `push_child`, then `Vec::insert`, which panics when
`index > children.len()` (after the child's parent link was already set). -/
def insertChild (doc : Document) (parent : Nat) (index : Nat) (node : Node) :
    Except Err Unit × Document :=
  match node with
  | .Element eid =>
    if eid = 0 then (.error .ContainerCannotMove, doc)
    else
      match getData doc eid with
      | none => (.error .panicArtifact, doc)
      | some d =>
        if d.parent.isSome then (.error .HasAParent, doc)
        else
          let doc1 := setData doc eid { d with parent := some parent }
          if index ≤ (childrenOf doc1 parent).length then
            (.ok (), modifyData doc1 parent
              (fun p => { p with children := p.children.insertIdx index node }))
          else (.error .panicArtifact, doc1)
  | _ =>
    if index ≤ (childrenOf doc parent).length then
      (.ok (), modifyData doc parent
        (fun p => { p with children := p.children.insertIdx index node }))
    else (.error .panicArtifact, doc)

/-- Model of `Element::remove_child` (src/element.rs lines 586-592): remove the
node at an index (panic when out of range, hence `none`), then clear the
removed element's parent link. -/
def removeChild (doc : Document) (parent : Nat) (index : Nat) : Option Node × Document :=
  match (childrenOf doc parent)[index]? with
  | none => (none, doc)
  | some n =>
    let doc1 := modifyData doc parent (fun p => { p with children := p.children.eraseIdx index })
    match n with
    | .Element eid => (some n, modifyData doc1 eid (fun e => { e with parent := none }))
    | _ => (some n, doc1)

/-- Model of `Element::pop_child` (src/element.rs lines 595-601). -/
def popChild (doc : Document) (parent : Nat) : Option Node × Document :=
  match (childrenOf doc parent).getLast? with
  | none => (none, doc)
  | some n =>
    let doc1 := modifyData doc parent (fun p => { p with children := p.children.dropLast })
    match n with
    | .Element eid => (some n, modifyData doc1 eid (fun e => { e with parent := none }))
    | _ => (some n, doc1)

/-- The loop body of `Element::clear_children` (src/element.rs lines 604-612):
`count` iterations of `remove_child(parent, 0)`. -/
def clearChildrenLoop (doc : Document) (parent : Nat) : Nat → List Node × Document
  | 0 => ([], doc)
  | count + 1 =>
    let (n, doc1) := removeChild doc parent 0
    let (rest, doc2) := clearChildrenLoop doc1 parent count
    (n.toList ++ rest, doc2)

/-- Model of `Element::clear_children` (src/element.rs lines 604-612). -/
def clearChildren (doc : Document) (parent : Nat) : List Node × Document :=
  clearChildrenLoop doc parent (childrenOf doc parent).length

/-- Model of `Element::detach` (src/element.rs lines 619-633): error for the
container, no-op success without a parent, otherwise locate itself in the
parent's child list by identity (the source unwraps the position) and
`remove_child` there. -/
def detach (doc : Document) (id : Nat) : Except Err Unit × Document :=
  if id = 0 then (.error .ContainerCannotMove, doc)
  else
    match getData doc id with
    | none => (.error .panicArtifact, doc)
    | some d =>
      match d.parent with
      | none => (.ok (), doc)
      | some q =>
        match (childrenOf doc q).findIdx? (fun n => n.asElement = some id) with
        | none => (.error .panicArtifact, doc)
        | some pos => (.ok (), (removeChild doc q pos).2)

/-- Split a byte string at the first occurrence of a byte, returning the
parts before and after it (model of `str::split_once` / the colon search of
quick-xml `QName::index`). -/
def splitFirst (b : Nat) : Str → Option (Str × Str)
  | [] => none
  | c :: rest =>
    if c = b then some ([], rest)
    else (splitFirst b rest).map (fun p => (c :: p.1, p.2))

/-- Model of `Element::separate_prefix_name` (src/element.rs lines 228-233):
split the full name on the first `:` into the pair of the part before it and
the part after it, or pair the empty string with the whole name. -/
def separatePrefixName (fullName : Str) : Str × Str :=
  match splitFirst 58 fullName with
  | some (p, name) => (p, name)
  | none => ([], fullName)

/-- Model of quick-xml `QName::decompose` (an external collaborator of
src/parser.rs): the local name after the first `:` together with the optional
part before it. -/
def decompose (name : Str) : Str × Option Str :=
  match splitFirst 58 name with
  | some (p, localPart) => (localPart, some p)
  | none => (name, none)

/-- Model of `attributes::is_xlmns` (src/utils.rs lines 130-134):
`bytes == b"xmlns" || bytes.starts_with(b"xmlns")`. -/
def isXlmns (b : Str) : Bool :=
  b = bytes "xmlns" || (bytes "xmlns").isPrefixOf b

/-- Model of `is_whitespace` (src/parser.rs lines 501-506). -/
def isWhitespaceByte (b : Nat) : Bool :=
  b = 13 || b = 10 || b = 9 || b = 32

/-- Model of `only_has_whitespace` (src/parser.rs lines 509-511). -/
def onlyHasWhitespace (b : Str) : Bool :=
  b.all isWhitespaceByte

/-- The loop of `normalize_space` (src/parser.rs lines 516-531), with the
`char_found` and `last_space` flags as parameters. -/
def normalizeSpaceCore : Str → Bool → Bool → Str
  | [], _, _ => []
  | b :: rest, charFound, lastSpace =>
    if isWhitespaceByte b then
      if charFound && !lastSpace then 32 :: normalizeSpaceCore rest charFound true
      else normalizeSpaceCore rest charFound lastSpace
    else b :: normalizeSpaceCore rest true false

/-- Model of `normalize_space` (src/parser.rs lines 516-537): run the loop,
then pop one trailing space if present. -/
def normalizeSpace (b : Str) : Str :=
  let n := normalizeSpaceCore b false false
  if n.getLast? = some 32 then n.dropLast else n

/-- Lowercase hex digit byte for a value below 16 (std `u8::escape_ascii`). -/
def hexDigitByte (n : Nat) : Nat :=
  if n < 10 then 48 + n else 87 + n

/-- Model of std `u8::escape_ascii` for one byte, as used on comment events in
src/parser.rs line 351: tab, CR, LF, backslash and both quote bytes become
two-byte backslash escapes, printable ASCII is kept, and every other byte
becomes a four-byte hex escape. -/
def escapeAsciiByte (b : Nat) : Str :=
  if b = 9 then [92, 116]
  else if b = 13 then [92, 114]
  else if b = 10 then [92, 110]
  else if b = 92 then [92, 92]
  else if b = 39 then [92, 39]
  else if b = 34 then [92, 34]
  else if 32 ≤ b && b ≤ 126 then [b]
  else [92, 120, hexDigitByte (b / 16), hexDigitByte (b % 16)]

/-- Model of `<[u8]>::escape_ascii` over a byte string. -/
def escapeAscii (s : Str) : Str :=
  (s.map escapeAsciiByte).flatten

/-- Hex digit value of a byte (`u32::from_str_radix` with radix 16). -/
def hexVal? (b : Nat) : Option Nat :=
  if 48 ≤ b && b ≤ 57 then some (b - 48)
  else if 97 ≤ b && b ≤ 102 then some (b - 87)
  else if 65 ≤ b && b ≤ 70 then some (b - 55)
  else none

/-- Decimal digit value of a byte (`u32::from_str_radix` with radix 10). -/
def decVal? (b : Nat) : Option Nat :=
  if 48 ≤ b && b ≤ 57 then some (b - 48) else none

/-- Digit-folding part of `from_str_radix` (src/utils/encoding.rs lines 6-13):
empty input and non-digits fail; the `u32` result overflows above `2^32 - 1`. -/
def parseRadix (digit? : Nat → Option Nat) (radix : Nat) : Str → Option Nat
  | [] => none
  | ds =>
    ds.foldl
      (fun acc b =>
        match acc, digit? b with
        | some a, some d => if a * radix + d < 2 ^ 32 then some (a * radix + d) else none
        | _, _ => none)
      (some 0)

/-- Model of `from_str_radix` (src/utils/encoding.rs lines 6-13): a leading
`+` or `-` byte is rejected, then the digits are parsed. -/
def fromStrRadix (digit? : Nat → Option Nat) (radix : Nat) (s : Str) : Option Nat :=
  match s.head? with
  | some 43 => none
  | some 45 => none
  | _ => parseRadix digit? radix s

/-- Model of `parse_number` (src/utils/encoding.rs lines 14-27): strip an `x`
for hex, parse, reject 0 and values that are not Unicode scalar values. -/
def parseNumber (num : Str) : Option Nat :=
  let code? :=
    match num with
    | 120 :: hex => fromStrRadix hexVal? 16 hex
    | _ => fromStrRadix decVal? 10 num
  match code? with
  | none => none
  | some 0 => none
  | some code =>
    if code < 0xD800 || (0xE000 ≤ code && code ≤ 0x10FFFF) then some code else none

/-- UTF-8 encoding of a Unicode scalar value (`char::encode_utf8`). -/
def encodeUTF8 (c : Nat) : Str :=
  if c < 0x80 then [c]
  else if c < 0x800 then [0xC0 + c / 64, 0x80 + c % 64]
  else if c < 0x10000 then [0xE0 + c / 4096, 0x80 + c / 64 % 64, 0x80 + c % 64]
  else [0xF0 + c / 262144, 0x80 + c / 4096 % 64, 0x80 + c / 64 % 64, 0x80 + c % 64]

/-- Model of quick-xml `resolve_predefined_entity`, the resolver passed to
`unescape_with` throughout src/utils.rs: the five XML predefined entities. -/
def resolvePredefined (ent : Str) : Option Str :=
  if ent = bytes "lt" then some (bytes "<")
  else if ent = bytes "gt" then some (bytes ">")
  else if ent = bytes "amp" then some (bytes "&")
  else if ent = bytes "apos" then some [39]
  else if ent = bytes "quot" then some [34]
  else none

/-- Resolution of one complete entity body (the text between `&` and `;`) per
`unescape_with_and_ignore` (src/utils/encoding.rs lines 52-61): a leading `#`
starts a character reference whose parse failure is an error, otherwise the
predefined entities are replaced and an unknown entity is kept verbatim
including its delimiters. -/
def resolveEntity (ent : Str) : Except Err Str :=
  match ent with
  | 35 :: numPart =>
    match parseNumber numPart with
    | none => .error .EscapeError
    | some cp => .ok (encodeUTF8 cp)
  | _ =>
    match resolvePredefined ent with
    | some v => .ok v
    | none => .ok (38 :: ent ++ [59])

/-- The scan of `unescape_with_and_ignore` (src/utils/encoding.rs lines
29-77), reformulated as a byte-at-a-time automaton: outside an entity
(`inEnt = none`) bytes pass through and `&` opens an entity; inside an
entity, a further `&` before the closing `;` or the end of input is the
source's `UnterminatedEntity` error, and `;` closes and resolves the
collected entity body. -/
def unescapeGo : Str → Option Str → Except Err Str
  | [], none => .ok []
  | [], some _ => .error .EscapeError
  | b :: rest, none =>
    if b = 38 then unescapeGo rest (some [])
    else
      match unescapeGo rest none with
      | .error e => .error e
      | .ok done => .ok (b :: done)
  | b :: rest, some acc =>
    if b = 38 then .error .EscapeError
    else if b = 59 then
      match resolveEntity acc with
      | .error e => .error e
      | .ok v =>
        match unescapeGo rest none with
        | .error e => .error e
        | .ok done => .ok (v ++ done)
    else unescapeGo rest (some (acc ++ [b]))

/-- Model of `unescape_with_and_ignore` (src/utils/encoding.rs lines 29-77)
with quick-xml `resolve_predefined_entity`, as used by
`bytes_to_unescaped_string` / `bytes_owned_to_unescaped_string`
(src/utils.rs lines 109-125).  The default build path delegates to quick-xml
`unescape_with`, which differs only by failing on unknown entities; no claim
involves an unknown entity. -/
def unescapeBytes (s : Str) : Except Err Str :=
  unescapeGo s none

/-- The fixed URI returned for the reserved `xml` prefix
(src/element.rs line 393). -/
def xmlURI : Str := bytes "http://www.w3.org/XML/1998/namespace"

/-- The fixed URI returned for the reserved `xmlns` prefix
(src/element.rs line 394). -/
def xmlnsURI : Str := bytes "http://www.w3.org/2000/xmlns/"

/-- The loop of `Element::namespace_for_prefix` (src/element.rs lines 397-404):
look the prefix up in the current element's namespace declarations, else step
to the parent; the walk ends with `none` at a parentless element.  The source
loop has no fuel; the fuel argument only bounds the number of steps so the
model is total (a cyclic parent chain, which no checked mutation produces,
would make the source loop forever). -/
def nsLookupLoop (doc : Document) : Nat → Nat → Str → Option Str
  | 0, _, _ => none
  | fuel + 1, id, pfx =>
    match getData doc id with
    | none => none
    | some d =>
      match alGet d.namespaceDecls pfx with
      | some v => some v
      | none =>
        match d.parent with
        | none => none
        | some p => nsLookupLoop doc fuel p pfx

/-- Model of `Element::namespace_for_prefix` (src/element.rs lines 391-405):
the reserved prefixes `xml` and `xmlns` return their fixed URIs before any
document access, otherwise the parent walk runs. -/
def namespaceForPfx (doc : Document) (fuel : Nat) (id : Nat) (pfx : Str) : Option Str :=
  if pfx = bytes "xml" then some xmlURI
  else if pfx = bytes "xmlns" then some xmlnsURI
  else nsLookupLoop doc fuel id pfx

/-- Model of `Element::namespace` (src/element.rs lines 362-364): the resolver
applied to the element's own prefix. -/
def elemNamespace (doc : Document) (fuel : Nat) (id : Nat) : Option Str :=
  match getData doc id with
  | none => none
  | some d => namespaceForPfx doc fuel id (separatePrefixName d.fullName).1

/-- Model of `Node::build_text_content` (src/document/node.rs lines 78-86) and
`Element::build_text_content` (src/element.rs lines 407-411): `Text`, `CData`
and `PI` payloads are appended to the buffer, elements recurse over their
children in order, and the catch-all arm skips `Comment` and `DocType`.  The
fuel bounds element recursion depth only (the source recurses through the
store without a bound). -/
def buildTextContent (doc : Document) (fuel : Nat) (n : Node) (buf : Str) : Str :=
  match n with
  | .Text s => buf ++ s
  | .CData s => buf ++ s
  | .PI s => buf ++ s
  | .Comment _ => buf
  | .DocType _ => buf
  | .Element id =>
    match fuel with
    | 0 => buf
    | fuel + 1 => (childrenOf doc id).foldl (fun b c => buildTextContent doc fuel c b) buf

/-- Model of `Element::text_content` (src/element.rs lines 416-420). -/
def textContent (doc : Document) (fuel : Nat) (id : Nat) : Str :=
  buildTextContent doc fuel (.Element id) []

/-- Model of `Node::text_content` (src/document/node.rs lines 92-96). -/
def nodeTextContent (doc : Document) (fuel : Nat) (n : Node) : Str :=
  buildTextContent doc fuel n []

/-- Model of `ReadOptions` (src/parser.rs lines 139-163), without the
capacity-only `optimizations` field. -/
structure ReadOptions where
  emptyTextNode : Bool
  trimText : Bool
  ignoreWhitespaceOnly : Bool
  requireDecl : Bool
  encodingLabel : Option Str
  normalizeAttributeValueSpace : Bool
  deriving DecidableEq, Repr

/-- Model of `ReadOptions::default` (src/parser.rs lines 178-190). -/
def ReadOptions.default : ReadOptions :=
  { emptyTextNode := true, trimText := true, ignoreWhitespaceOnly := false,
    requireDecl := true, encodingLabel := none, normalizeAttributeValueSpace := false }

/-- Model of the quick-xml `Event` stream consumed by the parser (the external
tokenizer): start/empty tags carry the raw tag name and the raw, still-escaped
attribute name/value byte pairs; the payload events carry raw content bytes;
a declaration carries its version, optional encoding label and optional
standalone value. -/
inductive Event where
  | Start (name : Str) (attrs : List (Str × Str))
  | End
  | Empty (name : Str) (attrs : List (Str × Str))
  | Text (content : Str)
  | CData (content : Str)
  | Comment (content : Str)
  | PI (content : Str)
  | DocType (content : Str)
  | Decl (version : Str) (encodingLabel : Option Str) (standalone : Option Str)
  | Eof
  deriving DecidableEq, Repr

/-- The encodings the sniffing and declaration handling distinguish
(src/parser.rs uses `encoding_rs` statics `UTF_8`, `UTF_16LE`, `UTF_16BE`). -/
inductive Enc where
  | utf8
  | utf16le
  | utf16be
  deriving DecidableEq, Repr

/-- ASCII lowercasing of a byte (for encoding label comparison). -/
def lowerByte (b : Nat) : Nat :=
  if 65 ≤ b && b ≤ 90 then b + 32 else b

/-- Model of `encoding_rs::Encoding::for_label` (an external collaborator)
restricted to the labels the UTF encodings of the spec use: labels are
compared case-insensitively, `utf-16` defaults to the little-endian variant. -/
def forLabel (s : Str) : Option Enc :=
  let l := s.map lowerByte
  if l = bytes "utf-8" || l = bytes "utf8" then some .utf8
  else if l = bytes "utf-16" || l = bytes "utf-16le" then some .utf16le
  else if l = bytes "utf-16be" then some .utf16be
  else none

/-- Model of `DocumentParser::handle_decl` (src/parser.rs lines 216-237):
record the version; resolve the encoding label (error when unknown, the
parser encoding field stays `none` for UTF-8); parse the standalone value.
The returned pair is the updated document together with the parser's
`encoding` field. -/
def handleDecl (doc : Document) (version : Str) (encodingLabel : Option Str)
    (standalone : Option Str) : Except Err (Document × Option Enc) :=
  let doc := { doc with version := version }
  match
    (match encodingLabel with
     | none => Except.ok (none : Option Enc)
     | some lab =>
       match forLabel lab with
       | none => Except.error Err.MissingEncoding
       | some .utf8 => Except.ok none
       | some e => Except.ok (some e)) with
  | .error e => .error e
  | .ok enc =>
    match standalone with
    | none => .ok ({ doc with standalone := none }, enc)
    | some sv =>
      match StandaloneValue.tryFromBytes sv with
      | .error e => .error e
      | .ok v => .ok ({ doc with standalone := some v }, enc)

/-- Model of `DocumentParser::element_attributes` (src/parser.rs lines
239-272): for each raw attribute, optionally normalize then unescape the
value; split the name with `QName::decompose`; a present before-colon part
satisfying `is_xlmns` files the value under the local name in the namespace
map, otherwise a local name satisfying `is_xlmns` files it under the empty
key, and any other attribute is filed under its full name in the ordinary
map. -/
def elementAttributes (normalize : Bool) : List (Str × Str) → Except Err (AList × AList)
  | [] => .ok ([], [])
  | (name, rawValue) :: rest =>
    match (if normalize then unescapeBytes (normalizeSpace rawValue) else unescapeBytes rawValue) with
    | .error e => .error e
    | .ok value =>
      match elementAttributes normalize rest with
      | .error e => .error e
      | .ok (attrs, nsDecls) =>
        let (key, pfx) := decompose name
        if (pfx.map isXlmns).getD false then
          .ok (attrs, alInsert key value nsDecls)
        else if isXlmns key then
          .ok (attrs, alInsert [] value nsDecls)
        else
          .ok (alInsert name value attrs, nsDecls)

/-- Parser state: the document under construction and the element stack
(head = top = the `Vec`'s last element). -/
structure PState where
  doc : Document
  stack : List Nat
  deriving DecidableEq, Repr

/-- Model of `DocumentParser::create_element` (src/parser.rs lines 274-282):
build the maps, allocate the record, push it as a child of the parent (the
source unwraps the push result; a fresh element has no parent and a nonzero
id in every reachable document, so the push cannot fail there). -/
def createElement (opts : ReadOptions) (doc : Document) (parent : Nat)
    (name : Str) (attrs : List (Str × Str)) : Except Err (Nat × Document) :=
  match elementAttributes opts.normalizeAttributeValueSpace attrs with
  | .error e => .error e
  | .ok (attributes, namespaceDecls) =>
    let (elem, doc1) := withData doc name attributes namespaceDecls
    match pushChild doc1 parent (.Element elem) with
    | (.ok _, doc2) => .ok (elem, doc2)
    | (.error _, _) => .error .panicArtifact

/-- Model of `DocumentParser::handle_event` (src/parser.rs lines 285-382);
returns the new state and the is-finished flag of the source's
`Result<bool>`. -/
def handleEvent (opts : ReadOptions) (st : PState) (ev : Event) :
    Except Err (PState × Bool) :=
  match ev with
  | .Start name attrs =>
    match st.stack.head? with
    | none => .error .GenericMalformedTree
    | some parent =>
      match createElement opts st.doc parent name attrs with
      | .error e => .error e
      | .ok (elem, doc1) => .ok ({ doc := doc1, stack := elem :: st.stack }, false)
  | .End =>
    match st.stack with
    | [] => .error .GenericMalformedTree
    | elem :: rest =>
      if opts.emptyTextNode && (childrenOf st.doc elem).isEmpty then
        .ok ({ doc := (pushChild st.doc elem (.Text [])).2, stack := rest }, false)
      else .ok ({ st with stack := rest }, false)
  | .Empty name attrs =>
    match st.stack.head? with
    | none => .error .GenericMalformedTree
    | some parent =>
      match createElement opts st.doc parent name attrs with
      | .error e => .error e
      | .ok (_, doc1) => .ok ({ st with doc := doc1 }, false)
  | .Text content =>
    if opts.ignoreWhitespaceOnly && onlyHasWhitespace content then .ok (st, false)
    else if content.isEmpty then .ok (st, false)
    else
      match unescapeBytes content with
      | .error e => .error e
      | .ok unescaped =>
        match st.stack.head? with
        | none => .error .GenericMalformedTree
        | some parent =>
          .ok ({ st with doc := (pushChild st.doc parent (.Text unescaped)).2 }, false)
  | .DocType content =>
    match unescapeBytes content with
    | .error e => .error e
    | .ok raw =>
      let stored := match raw with
        | 32 :: tail => tail
        | other => other
      match st.stack.head? with
      | none => .error .GenericMalformedTree
      | some parent =>
        .ok ({ st with doc := (pushChild st.doc parent (.DocType stored)).2 }, false)
  | .Comment content =>
    match st.stack.head? with
    | none => .error .GenericMalformedTree
    | some parent =>
      .ok ({ st with doc := (pushChild st.doc parent (.Comment (escapeAscii content))).2 }, false)
  | .CData content =>
    match st.stack.head? with
    | none => .error .GenericMalformedTree
    | some parent =>
      .ok ({ st with doc := (pushChild st.doc parent (.CData content)).2 }, false)
  | .PI content =>
    match st.stack.head? with
    | none => .error .GenericMalformedTree
    | some parent =>
      .ok ({ st with doc := (pushChild st.doc parent (.PI content)).2 }, false)
  | .Decl _ _ _ => .error .UnexpectedDecl
  | .Eof => .ok (st, true)

/-- The initial parser state of `DocumentParser::parse_reader` (src/parser.rs
lines 201-214): a fresh document and the container handle on the stack. -/
def initialPState : PState :=
  { doc := Document.new, stack := [0] }

/-- Model of the event loop of `DocumentParser::parse_content` (src/parser.rs
lines 476-495) over a given event list: stop at the first error or at the
is-finished flag, where only a stack holding just the container is accepted. -/
def parseContent (opts : ReadOptions) : PState → List Event → Except Err Document
  | _, [] => .error .panicArtifact
  | st, ev :: rest =>
    match handleEvent opts st ev with
    | .error e => .error e
    | .ok (st1, true) =>
      if st1.stack.length = 1 then .ok st1.doc else .error .MissingClosingTag
    | .ok (st1, false) => parseContent opts st1 rest

/-- Model of quick-xml `escape::escape` for one byte: the five XML special
characters become entity references. -/
def escapeXmlByte (b : Nat) : Str :=
  if b = 38 then bytes "&amp;"
  else if b = 60 then bytes "&lt;"
  else if b = 62 then bytes "&gt;"
  else if b = 39 then bytes "&apos;"
  else if b = 34 then bytes "&quot;"
  else [b]

/-- Model of quick-xml `escape::escape` (used by `Document::write_element` on
attribute and namespace values, and by `BytesText::new` on text, comment and
doctype payloads before they reach the writer). -/
def escapeXml (s : Str) : Str :=
  (s.map escapeXmlByte).flatten

/-- The events `Document::write_nodes` / `write_element` (src/document.rs
lines 269-317) hand to the quick-xml writer.  Payloads are the byte strings
stored in the event structs at that point: `BytesText::new` escapes its
input (text, comment, doctype), `BytesCData::new` and `BytesPI::new` do not;
start/empty tags carry the name and the attribute pairs pushed by
`write_element` (whose values it passed through `escape` once; the writer's
own attribute conversion downstream of these events is not modelled). -/
inductive WEvent where
  | start (name : Str) (attrs : List (Str × Str))
  | endTag (name : Str)
  | empty (name : Str) (attrs : List (Str × Str))
  | text (s : Str)
  | comment (s : Str)
  | cdata (s : Str)
  | pi (s : Str)
  | doctype (s : Str)
  deriving DecidableEq, Repr

/-- The attribute name a namespace declaration is rendered under
(src/document.rs lines 299-307): `xmlns` for the empty prefix, otherwise
`xmlns:` followed by the prefix. -/
def xmlnsAttrName (pfx : Str) : Str :=
  if pfx = [] then bytes "xmlns" else bytes "xmlns:" ++ pfx

/-- The attribute pairs `write_element` pushes onto a start tag: ordinary
attributes first, then namespace declarations, all values escaped once. -/
def startAttrs (d : ElementData) : List (Str × Str) :=
  d.attributes.map (fun kv => (kv.1, escapeXml kv.2))
    ++ d.namespaceDecls.map (fun kv => (xmlnsAttrName kv.1, escapeXml kv.2))

/-- The events one non-element node contributes in `Document::write_nodes`
(src/document.rs lines 269-290): text, comment and doctype payloads pass
through `BytesText::new` (escaping; the doctype gains one leading space
first), CDATA and PI payloads are written verbatim.  Elements are handled by
`writeNodes`. -/
def leafEvents : Node → List WEvent
  | .Text s => [.text (escapeXml s)]
  | .DocType s => [.doctype (escapeXml (32 :: s))]
  | .Comment s => [.comment (escapeXml s)]
  | .CData s => [.cdata s]
  | .PI s => [.pi s]
  | .Element _ => []

/-- Model of `Document::write_nodes` / `write_element` (src/document.rs lines
269-317) over a node list: each non-element node contributes its
`leafEvents`; an element with no children becomes one self-closing empty
tag, any other element becomes a start tag, its recursively serialized
children, and an end tag.  The fuel bounds element nesting depth only (the
source recursion is unbounded); at fuel 0 an element contributes nothing. -/
def writeNodes (doc : Document) : Nat → List Node → List WEvent
  | 0, ns => ns.flatMap leafEvents
  | fuel + 1, ns =>
    ns.flatMap fun n =>
      match n with
      | .Element id =>
        match getData doc id with
        | none => []
        | some d =>
          if d.children.isEmpty then [.empty d.fullName (startAttrs d)]
          else
            [.start d.fullName (startAttrs d)]
              ++ writeNodes doc fuel d.children
              ++ [.endTag d.fullName]
      | other => leafEvents other

/-- Model of `Document::write_element` (src/document.rs lines 292-317). -/
def writeElement (doc : Document) (fuel : Nat) (id : Nat) : List WEvent :=
  writeNodes doc fuel [.Element id]

/-- One public document-mutating operation, for stating store invariants over
arbitrary operation sequences: element creation (`Element::new` /
`ElementBuilder::finish` / `Document::push_to_store`), every tree mutation of
src/element.rs, the record setters that rewrite names, attributes or
namespace declarations in place, declaration recording, and one parser event
step with an arbitrary element stack (covering every document mutation the
parser performs). -/
inductive Op where
  | newElement (fullName : Str) (attrs nsd : AList)
  | pushChild (parent : Nat) (n : Node)
  | insertChild (parent index : Nat) (n : Node)
  | removeChild (parent index : Nat)
  | popChild (parent : Nat)
  | clearChildren (parent : Nat)
  | detach (id : Nat)
  | setFullName (id : Nat) (s : Str)
  | setAttribute (id : Nat) (k v : Str)
  | setNamespaceDecl (id : Nat) (k v : Str)
  | handleDecl (version : Str) (enc : Option Str) (standalone : Option Str)
  | handleEvent (opts : ReadOptions) (stack : List Nat) (ev : Event)

/-- Apply one operation to a document, keeping the document of the error
path (which the fallible operations return unchanged or partially updated,
exactly as the in-place mutation leaves it). -/
def applyOp (doc : Document) : Op → Document
  | .newElement fullName attrs nsd => (withData doc fullName attrs nsd).2
  | .pushChild parent n => (pushChild doc parent n).2
  | .insertChild parent index n => (insertChild doc parent index n).2
  | .removeChild parent index => (removeChild doc parent index).2
  | .popChild parent => (popChild doc parent).2
  | .clearChildren parent => (clearChildren doc parent).2
  | .detach id => (detach doc id).2
  | .setFullName id s => modifyData doc id (fun d => { d with fullName := s })
  | .setAttribute id k v =>
    modifyData doc id (fun d => { d with attributes := alInsert k v d.attributes })
  | .setNamespaceDecl id k v =>
    modifyData doc id (fun d => { d with namespaceDecls := alInsert k v d.namespaceDecls })
  | .handleDecl version enc standalone =>
    match handleDecl doc version enc standalone with
    | .ok (doc1, _) => doc1
    | .error _ => doc
  | .handleEvent opts stack ev =>
    match handleEvent opts { doc := doc, stack := stack } ev with
    | .ok (st1, _) => st1.doc
    | .error _ => doc

/-- Apply a sequence of operations from left to right. -/
def applyOps (doc : Document) (ops : List Op) : Document :=
  ops.foldl applyOp doc

/-- The documented store invariant (src/document.rs line 52 and spec):
`counter` equals the store length, index 0 exists, and the record at index 0
(the container) has no parent. -/
def Inv (doc : Document) : Prop :=
  doc.counter = doc.store.length ∧
    ∃ d, doc.store[0]? = some d ∧ d.parent = none


/-- Witness material: a fresh document extended with one element record
named `a` (handle 1, no parent, no children). -/
def docA : Document := (withData Document.new (bytes "a") [] []).2

/-- Witness material: the document of the spec's namespace-resolution example
`<root xmlns="ns" xmlns:p="pns"><p:foo xmlns="inner"/><p:bar xmlns:p="in2"><c/></p:bar></root>`
laid out directly in the store (container 0, root 1, foo 2, bar 3, c 4). -/
def nsTestDoc : Document :=
  { counter := 5,
    store :=
      [ { containerData with children := [.Element 1] },
        { fullName := bytes "root", attributes := [],
          namespaceDecls := [(bytes "", bytes "ns"), (bytes "p", bytes "pns")],
          parent := some 0, children := [.Element 2, .Element 3] },
        { fullName := bytes "p:foo", attributes := [],
          namespaceDecls := [(bytes "", bytes "inner")],
          parent := some 1, children := [] },
        { fullName := bytes "p:bar", attributes := [],
          namespaceDecls := [(bytes "p", bytes "in2")],
          parent := some 1, children := [.Element 4] },
        { fullName := bytes "c", attributes := [], namespaceDecls := [],
          parent := some 3, children := [] } ],
    version := bytes "1.0", standalone := none }

/-- Whether the last byte of a string is XML whitespace (helper for stating
the trailing-trim part of attribute-value normalization). -/
def endsWs : Str → Bool
  | [] => false
  | [x] => isWhitespaceByte x
  | _ :: x :: r => endsWs (x :: r)

/-- Spec-side formulation of the claim's whitespace words: the chunks of a
byte string between whitespace bytes, with the empty chunks of leading,
trailing and repeated whitespace dropped. -/
def wsWords (s : Str) : List Str :=
  (s.splitOnP isWhitespaceByte).filter (fun w => w ≠ [])

/-- Spec-side formulation of the claim's attribute-value normalization rule:
CR, LF and TAB are whitespace like the space byte, runs of whitespace
collapse to a single space, and leading/trailing whitespace is removed —
i.e. the whitespace words rejoined with single spaces. -/
def specNormalizedValue (s : Str) : Str :=
  List.intercalate [32] (wsWords s)

/-- Witness material: a document whose root (handle 1) has one child of
every node kind, the element child (handle 2) holding one text child. -/
def textTestDoc : Document :=
  { counter := 3,
    store :=
      [ { containerData with children := [.Element 1] },
        { fullName := bytes "r", attributes := [], namespaceDecls := [],
          parent := some 0,
          children := [.Text (bytes "A"), .CData (bytes "B"), .PI (bytes "C"),
            .Comment (bytes "X"), .DocType (bytes "Y"), .Element 2] },
        { fullName := bytes "k", attributes := [], namespaceDecls := [],
          parent := some 1, children := [.Text (bytes "D")] } ],
    version := bytes "1.0", standalone := none }

/-- The ancestor walk of an element: `ParentChain doc id l` states that `l`
is the list of elements visited from `id` along parent links, ending at the
first element with no parent.  Such a chain exists exactly when the walk
terminates; no claim concerns cyclic parent links, on which the source loop
would not return. -/
inductive ParentChain (doc : Document) : Nat → List Nat → Prop where
  | last (id : Nat) (d : ElementData) :
      getData doc id = some d → d.parent = none → ParentChain doc id [id]
  | step (id : Nat) (d : ElementData) (p : Nat) (l : List Nat) :
      getData doc id = some d → d.parent = some p →
      ParentChain doc p l → ParentChain doc id (id :: l)

/-- Spec-side formulation for C3: the value of the first element on a walk
whose namespace-declaration mapping contains the prefix, if any. -/
def chainFirstDecl (doc : Document) (l : List Nat) (pfx : Str) : Option Str :=
  l.findSome? (fun i => (getData doc i).bind (fun d => alGet d.namespaceDecls pfx))

/-!
Theorems settling the claims.
-/

/-- C2: for every document, `push_child` and `insert_child` with a node
wrapping the container element (id 0) return `ContainerCannotMove` and leave
the document unchanged; `detach` of the container returns
`ContainerCannotMove`; and `detach` of a non-container element that has no
parent succeeds and changes nothing. -/
theorem container_cannot_move_detach_noop (doc : Document) (parent index id : Nat)
    (d : ElementData) (hget : getData doc id = some d) (hpar : d.parent = none)
    (hid : id ≠ 0) :
    pushChild doc parent (.Element 0) = (.error .ContainerCannotMove, doc) ∧
    insertChild doc parent index (.Element 0) = (.error .ContainerCannotMove, doc) ∧
    detach doc 0 = (.error .ContainerCannotMove, doc) ∧
    detach doc id = (.ok (), doc) := by
  refine ⟨rfl, rfl, rfl, ?_⟩
  simp [detach, hid, hget, hpar]

/-- Witness for C2 at a concrete document: handle 1 of `docA` is a valid
parentless non-container element, and detaching it is a no-op success. -/
theorem container_cannot_move_detach_noop_witness :
    pushChild docA 1 (.Element 0) = (.error .ContainerCannotMove, docA) ∧
    insertChild docA 1 0 (.Element 0) = (.error .ContainerCannotMove, docA) ∧
    detach docA 0 = (.error .ContainerCannotMove, docA) ∧
    detach docA 1 = (.ok (), docA) :=
  container_cannot_move_detach_noop docA 1 0 1
    { fullName := bytes "a", attributes := [], namespaceDecls := [],
      parent := none, children := [] }
    (by rfl) (by rfl) (by decide)

/-- C8 counterexample: the declaration standalone value `YES` is a case
variant of `yes` (its ASCII lowercasing is `yes`), yet `try_from` rejects it
with `InvalidStandAloneValue` and `handle_decl` therefore fails, where the
claim says any case variant succeeds. -/
theorem standalone_uppercase_rejected :
    (bytes "YES").map lowerByte = bytes "yes" ∧
    StandaloneValue.tryFromBytes (bytes "YES") = .error .InvalidStandAloneValue ∧
    handleDecl Document.new (bytes "1.0") none (some (bytes "YES")) =
      .error .InvalidStandAloneValue := by
  exact ⟨by decide, rfl, rfl⟩

/-- C8 amended: parsing a declaration records the standalone flag exactly for
the byte strings `yes` and `no`; every other standalone value, including any
other case variant of yes/no, is rejected as `InvalidStandAloneValue`. -/
theorem standalone_exact_match_only (doc : Document) (version sv : Str) :
    (StandaloneValue.tryFromBytes sv = .ok .yes ↔ sv = bytes "yes") ∧
    (StandaloneValue.tryFromBytes sv = .ok .no ↔ sv = bytes "no") ∧
    (sv = bytes "yes" →
      handleDecl doc version none (some sv) =
        .ok ({ doc with version := version, standalone := some .yes }, none)) ∧
    (sv = bytes "no" →
      handleDecl doc version none (some sv) =
        .ok ({ doc with version := version, standalone := some .no }, none)) ∧
    (sv ≠ bytes "yes" → sv ≠ bytes "no" →
      handleDecl doc version none (some sv) = .error .InvalidStandAloneValue) := by
  by_cases hy : sv = bytes "yes"
  · subst hy
    exact ⟨by decide, by decide, fun _ => rfl, fun h => absurd h (by decide),
      fun h => absurd rfl h⟩
  · by_cases hn : sv = bytes "no"
    · subst hn
      exact ⟨by decide, by decide, fun h => absurd h (by decide), fun _ => rfl,
        fun _ h => absurd rfl h⟩
    · refine ⟨?_, ?_, fun h => absurd h hy, fun h => absurd h hn, fun _ _ => ?_⟩
      · simp [StandaloneValue.tryFromBytes, hy, hn]
      · simp [StandaloneValue.tryFromBytes, hy, hn]
      · simp [handleDecl, StandaloneValue.tryFromBytes, hy, hn]

/-- Witness for C8 amended: the exact byte string `yes` is accepted and
recorded, on a concrete fresh document. -/
theorem standalone_exact_match_only_witness :
    handleDecl Document.new (bytes "1.0") none (some (bytes "yes")) =
      .ok ({ Document.new with version := bytes "1.0", standalone := some .yes }, none) :=
  (standalone_exact_match_only Document.new (bytes "1.0") (bytes "yes")).2.2.1 rfl

/-- Unfolding of `is_xlmns` (src/utils.rs lines 130-134): the equality
disjunct is subsumed by `starts_with`, so the predicate is exactly "begins
with the bytes `xmlns`" (with no colon required). -/
theorem isXlmns_eq_isPrefixOf (b : Str) : isXlmns b = (bytes "xmlns").isPrefixOf b := by
  unfold isXlmns
  by_cases h : b = bytes "xmlns"
  · subst h; simp [List.isPrefixOf_iff_prefix]
  · simp [h]

/-- C4 counterexample: the attribute named `xmlnsfoo` (which is neither
exactly `xmlns` nor starts with `xmlns:`) is stored as a namespace
declaration under the empty-string key and not as an ordinary attribute, and
`xmlnsx:foo` is stored as a namespace declaration under `foo`; the claim
says both are ordinary attributes under their full names. -/
theorem xmlnsfoo_misclassified :
    elementAttributes false [(bytes "xmlnsfoo", bytes "v")] =
      .ok ([], [([], bytes "v")]) ∧
    elementAttributes false [(bytes "xmlnsfoo", bytes "v")] ≠
      .ok ([(bytes "xmlnsfoo", bytes "v")], []) ∧
    elementAttributes false [(bytes "xmlnsx:foo", bytes "v")] =
      .ok ([], [(bytes "foo", bytes "v")]) ∧
    elementAttributes false [(bytes "xmlnsx:foo", bytes "v")] ≠
      .ok ([(bytes "xmlnsx:foo", bytes "v")], []) :=
  ⟨rfl, by decide, rfl, by decide⟩

/-- C4 amended: an attribute becomes a namespace declaration exactly when
the part before its first colon begins with `xmlns` (stored under the part
after the colon), or — when it has no colon, or its before-colon part does
not begin with `xmlns` but the after-colon part does — when that local part
begins with `xmlns` (stored under the empty-string key); every other
attribute is stored as an ordinary attribute under its full name. -/
theorem attr_xmlns_split_rule (normalize : Bool) (name raw value : Str)
    (hval : (if normalize then unescapeBytes (normalizeSpace raw) else unescapeBytes raw)
      = .ok value) :
    (∀ p loc, splitFirst 58 name = some (p, loc) → (bytes "xmlns").isPrefixOf p →
      elementAttributes normalize [(name, raw)] = .ok ([], [(loc, value)])) ∧
    (∀ p loc, splitFirst 58 name = some (p, loc) → ¬ (bytes "xmlns").isPrefixOf p →
      (bytes "xmlns").isPrefixOf loc →
      elementAttributes normalize [(name, raw)] = .ok ([], [([], value)])) ∧
    (∀ p loc, splitFirst 58 name = some (p, loc) → ¬ (bytes "xmlns").isPrefixOf p →
      ¬ (bytes "xmlns").isPrefixOf loc →
      elementAttributes normalize [(name, raw)] = .ok ([(name, value)], [])) ∧
    (splitFirst 58 name = none → (bytes "xmlns").isPrefixOf name →
      elementAttributes normalize [(name, raw)] = .ok ([], [([], value)])) ∧
    (splitFirst 58 name = none → ¬ (bytes "xmlns").isPrefixOf name →
      elementAttributes normalize [(name, raw)] = .ok ([(name, value)], [])) := by
  refine ⟨fun p loc hsplit hp => ?_, fun p loc hsplit hp hloc => ?_,
    fun p loc hsplit hp hloc => ?_, fun hsplit hn => ?_, fun hsplit hn => ?_⟩ <;>
    simp [elementAttributes, hval, decompose, hsplit, isXlmns_eq_isPrefixOf, *, alInsert]

theorem endsWs_cons₂ (x y : Nat) (r : Str) : endsWs (x :: y :: r) = endsWs (y :: r) := rfl

theorem wsWords_nil : wsWords [] = [] := by
  simp [wsWords, List.splitOnP_nil]

theorem wsWords_cons_ws {x : Nat} (r : Str) (h : isWhitespaceByte x = true) :
    wsWords (x :: r) = wsWords r := by
  simp [wsWords, List.splitOnP_cons, h]

theorem splitOnP_cons_nonws {x : Nat} (r : Str) (h : isWhitespaceByte x = false)
    {w : Str} {t : List Str} (hw : r.splitOnP isWhitespaceByte = w :: t) :
    (x :: r).splitOnP isWhitespaceByte = (x :: w) :: t := by
  simp [List.splitOnP_cons, h, hw]

theorem wsWords_eq_nil_iff (b : Str) : wsWords b = [] ↔ b.all isWhitespaceByte = true := by
  induction b with
  | nil => simp [wsWords_nil]
  | cons x r ih =>
    by_cases hx : isWhitespaceByte x = true
    · simp [wsWords_cons_ws r hx, hx, ih]
    · obtain ⟨w, t, hw⟩ := List.exists_cons_of_ne_nil (List.splitOnP_ne_nil isWhitespaceByte r)
      have hs := splitOnP_cons_nonws r (by simpa using hx) hw
      simp [wsWords, hs, List.filter_cons, hx]

theorem endsWs_of_all_ws (b : Str) (hne : b ≠ []) (h : b.all isWhitespaceByte = true) :
    endsWs b = true := by
  induction b with
  | nil => exact absurd rfl hne
  | cons x r ih =>
    cases r with
    | nil => simpa [endsWs] using h
    | cons y r' =>
      rw [endsWs_cons₂]
      rw [List.all_cons] at h
      exact ih (by simp) ((Bool.and_eq_true _ _).mp h).2

theorem intercalate_nil_words (s : Str) : List.intercalate s ([] : List Str) = [] := rfl

theorem intercalate_cons_eq (s a : Str) (xs : List Str) :
    List.intercalate s (a :: xs) = a ++ (if xs = [] then [] else s ++ List.intercalate s xs) := by
  cases xs with
  | nil => simp [List.intercalate]
  | cons b t => simp [List.intercalate, List.intersperse_cons_cons]

theorem wsWords_mem (b : Str) :
    ∀ w ∈ wsWords b, w ≠ [] ∧ w.all (fun c => !isWhitespaceByte c) = true := by
  induction b with
  | nil => simp [wsWords_nil]
  | cons x r ih =>
    by_cases hx : isWhitespaceByte x = true
    · rw [wsWords_cons_ws r hx]; exact ih
    · obtain ⟨w, t, hw⟩ := List.exists_cons_of_ne_nil (List.splitOnP_ne_nil isWhitespaceByte r)
      have hs := splitOnP_cons_nonws r (by simpa using hx) hw
      have hxw : wsWords (x :: r) = (x :: w) :: t.filter (fun a => a ≠ []) := by
        simp [wsWords, hs, List.filter_cons]
      have hr : wsWords r = (if w = [] then [] else [w]) ++ t.filter (fun a => a ≠ []) := by
        by_cases hwnil : w = []
        · simp [wsWords, hw, List.filter_cons, hwnil]
        · simp [wsWords, hw, List.filter_cons, hwnil]
      intro u hu
      rw [hxw] at hu
      rcases List.mem_cons.mp hu with h1 | h2
      · subst h1
        refine ⟨by simp, ?_⟩
        by_cases hwnil : w = []
        · subst hwnil; simpa using hx
        · have hwmem : w ∈ wsWords r := by rw [hr]; simp [hwnil]
          have := (ih w hwmem).2
          simp only [List.all_cons, this, Bool.and_true]
          simpa using hx
      · exact ih u (by rw [hr]; exact List.mem_append_right _ h2)

/-- The two live states of the `normalize_space` loop, characterized against
the spec-side word joining: with a word already seen and a space just
emitted (or equivalently before any word, see `normalizeSpaceCore_false`),
the loop emits the joined words plus one trailing space when input ends in
whitespace after at least one word; with a word seen and no space pending, a
leading whitespace byte additionally emits one space immediately. -/
theorem normalizeSpaceCore_spec (b : Str) :
    normalizeSpaceCore b true true =
      specNormalizedValue b ++
        (if wsWords b = [] then [] else if endsWs b then [32] else []) ∧
    normalizeSpaceCore b true false =
      (match b.head? with
        | some y => if isWhitespaceByte y then [32] else []
        | none => ([] : Str)) ++
      (specNormalizedValue b ++
        (if wsWords b = [] then [] else if endsWs b then [32] else [])) := by
  induction b with
  | nil => simp [normalizeSpaceCore, specNormalizedValue, wsWords_nil, List.intercalate]
  | cons x r ih =>
    obtain ⟨ih1, ih2⟩ := ih
    by_cases hx : isWhitespaceByte x = true
    · cases r with
      | nil =>
        constructor <;>
          simp [normalizeSpaceCore, hx, specNormalizedValue, wsWords_cons_ws, wsWords_nil,
            List.intercalate]
      | cons y r' =>
        have hW : wsWords (x :: y :: r') = wsWords (y :: r') := wsWords_cons_ws _ hx
        constructor
        · rw [show normalizeSpaceCore (x :: y :: r') true true =
              normalizeSpaceCore (y :: r') true true by simp [normalizeSpaceCore, hx]]
          rw [ih1]
          simp [specNormalizedValue, hW, endsWs_cons₂]
        · rw [show normalizeSpaceCore (x :: y :: r') true false =
              32 :: normalizeSpaceCore (y :: r') true true by simp [normalizeSpaceCore, hx]]
          rw [ih1]
          simp [specNormalizedValue, hW, endsWs_cons₂, hx]
    · have hxb : isWhitespaceByte x = false := by simpa using hx
      have hpush1 : normalizeSpaceCore (x :: r) true true =
          x :: normalizeSpaceCore r true false := by simp [normalizeSpaceCore, hxb]
      have hpush2 : normalizeSpaceCore (x :: r) true false =
          x :: normalizeSpaceCore r true false := by simp [normalizeSpaceCore, hxb]
      have hhead : (x :: r).head? = some x := rfl
      cases r with
      | nil =>
        constructor <;>
          simp [hpush1, hpush2, normalizeSpaceCore, specNormalizedValue, wsWords, hxb,
            List.splitOnP_nil, List.splitOnP_cons, List.filter_cons, List.intercalate, endsWs]
      | cons y r' =>
        by_cases hy : isWhitespaceByte y = true
        · -- the first chunk after x is empty: x forms the word [x]
          have hsy : (y :: r').splitOnP isWhitespaceByte = [] :: r'.splitOnP isWhitespaceByte := by
            simp [List.splitOnP_cons, hy]
          have hsx : (x :: y :: r').splitOnP isWhitespaceByte =
              [x] :: r'.splitOnP isWhitespaceByte := splitOnP_cons_nonws _ hxb hsy
          have hWx : wsWords (x :: y :: r') = [x] :: wsWords r' := by
            simp [wsWords, hsx, List.filter_cons]
          have hWr : wsWords (y :: r') = wsWords r' := wsWords_cons_ws _ hy
          rw [hpush1, hpush2, ih2]
          by_cases hw' : wsWords r' = []
          · have hall : (y :: r').all isWhitespaceByte = true := by
              rw [List.all_cons, hy, Bool.true_and]
              exact (wsWords_eq_nil_iff r').mp hw'
            have hend : endsWs (y :: r') = true := endsWs_of_all_ws _ (by simp) hall
            have hspec : specNormalizedValue (y :: r') = [] := by
              simp [specNormalizedValue, hWr, hw', intercalate_nil_words]
            constructor <;>
              simp [hspec, hWr, hw', hend, hy, hhead, hxb, specNormalizedValue, hWx,
                intercalate_cons_eq, intercalate_nil_words, endsWs_cons₂]
          · have hcond : (if wsWords (y :: r') = [] then ([] : Str)
                else if endsWs (y :: r') then [32] else []) =
                (if endsWs (y :: r') then [32] else []) := by
              simp [hWr, hw']
            constructor <;>
              simp [hWr, hw', hy, hhead, hxb, specNormalizedValue, hWx,
                intercalate_cons_eq, endsWs_cons₂]
        · -- the first chunk after x starts with y
          have hyb : isWhitespaceByte y = false := by simpa using hy
          obtain ⟨w0, t0, hw0⟩ :=
            List.exists_cons_of_ne_nil (List.splitOnP_ne_nil isWhitespaceByte r')
          have hsy : (y :: r').splitOnP isWhitespaceByte = (y :: w0) :: t0 :=
            splitOnP_cons_nonws _ hyb hw0
          have hsx : (x :: y :: r').splitOnP isWhitespaceByte = (x :: y :: w0) :: t0 :=
            splitOnP_cons_nonws _ hxb hsy
          have hWy : wsWords (y :: r') = (y :: w0) :: t0.filter (fun a => a ≠ []) := by
            simp [wsWords, hsy, List.filter_cons]
          have hWx : wsWords (x :: y :: r') =
              (x :: y :: w0) :: t0.filter (fun a => a ≠ []) := by
            simp [wsWords, hsx, List.filter_cons]
          rw [hpush1, hpush2, ih2]
          constructor <;>
            simp [hWy, hWx, hyb, hhead, hxb, specNormalizedValue,
              intercalate_cons_eq, endsWs_cons₂]

/-- The `char_found = false` state of the `normalize_space` loop behaves like
the just-emitted-a-space state: leading whitespace is dropped either way. -/
theorem normalizeSpaceCore_false (b : Str) (ls : Bool) :
    normalizeSpaceCore b false ls = normalizeSpaceCore b true true := by
  induction b generalizing ls with
  | nil => rfl
  | cons x r ih =>
    by_cases hx : isWhitespaceByte x = true <;>
      simp [normalizeSpaceCore, hx, ih]

/-- The joined words never end in a space byte: every word is a nonempty run
of non-whitespace bytes. -/
theorem intercalate_wsWords_getLast (b : Str) :
    (List.intercalate [32] (wsWords b)).getLast? = some 32 → False := by
  have hmem := wsWords_mem b
  generalize hW : wsWords b = W at hmem
  clear hW
  induction W with
  | nil => simp [List.intercalate]
  | cons w t ih =>
    intro hlast
    rw [intercalate_cons_eq] at hlast
    cases t with
    | nil =>
      simp at hlast
      obtain ⟨hne, heq⟩ :=
        List.mem_getLast?_eq_getLast (Option.mem_def.mpr hlast)
      have hmem32 : (32 : Nat) ∈ w := heq ▸ List.getLast_mem hne
      have h32 := (hmem w (by simp)).2
      have := List.all_eq_true.mp h32 _ hmem32
      simp [isWhitespaceByte] at this
    | cons w' t' =>
      rw [if_neg (by simp : ¬(w' :: t' = []))] at hlast
      have hne : List.intercalate [32] (w' :: t') ≠ [] := by
        rw [intercalate_cons_eq]
        simp [List.append_eq_nil, (hmem w' (by simp)).1]
      rw [List.getLast?_append_of_ne_nil _
        (show ([32] ++ List.intercalate [32] (w' :: t') : Str) ≠ [] by simp)] at hlast
      rw [List.getLast?_append_of_ne_nil _ hne] at hlast
      exact ih (fun u hu => hmem u (by simp [hu])) hlast

/-- `normalize_space` equals the claim's normalization rule. -/
theorem normalizeSpace_eq_spec (b : Str) : normalizeSpace b = specNormalizedValue b := by
  unfold normalizeSpace
  rw [normalizeSpaceCore_false b false, (normalizeSpaceCore_spec b).1]
  by_cases hW : wsWords b = []
  · simp [hW, specNormalizedValue, List.intercalate]
  · by_cases hE : endsWs b
    · simp [hW, hE, specNormalizedValue]
    · simp only [hW, hE, if_neg, ite_false, List.append_nil]
      rw [if_neg]
      · simp [specNormalizedValue]
      · intro h
        exact intercalate_wsWords_getLast b (by simpa [specNormalizedValue] using h)

/-- C6: with `normalize_attribute_value_space` enabled every attribute value
is normalized before entity unescaping; `normalize_space` treats CR, LF and
TAB like the space byte, collapses whitespace runs to single spaces and
trims both ends (it equals the word-join formulation); and the claim's
concrete input `" \r\t\n\n ab&#xD;   c\n  "` normalizes to `ab&#xD; c`, whose
character reference then unescapes to a carriage return, parsing to the
attribute value `ab\r c` (bytes `[97, 98, 13, 32, 99]`). -/
theorem attr_value_space_normalization (b name raw value : Str)
    (hval : unescapeBytes (normalizeSpace raw) = .ok value)
    (hplain : splitFirst 58 name = none)
    (hpfx : ¬ (bytes "xmlns").isPrefixOf name) :
    normalizeSpace b = specNormalizedValue b ∧
    elementAttributes true [(name, raw)] = .ok ([(name, value)], []) ∧
    normalizeSpace [32, 13, 9, 10, 10, 32, 97, 98, 38, 35, 120, 68, 59, 32, 32, 32, 99, 10, 32, 32] =
      bytes "ab&#xD; c" ∧
    elementAttributes true
        [(bytes "a", [32, 13, 9, 10, 10, 32, 97, 98, 38, 35, 120, 68, 59, 32, 32, 32, 99, 10, 32, 32])] =
      .ok ([(bytes "a", [97, 98, 13, 32, 99])], []) := by
  refine ⟨normalizeSpace_eq_spec b, ?_, by decide, rfl⟩
  simp [elementAttributes, hval, decompose, hplain, isXlmns_eq_isPrefixOf, hpfx, alInsert]

/-- Witness for C6 at the claim's concrete input, with the ordinary
attribute name `attr`. -/
theorem attr_value_space_normalization_witness :
    elementAttributes true
        [(bytes "attr", [32, 13, 9, 10, 10, 32, 97, 98, 38, 35, 120, 68, 59, 32, 32, 32, 99, 10, 32, 32])] =
      .ok ([(bytes "attr", [97, 98, 13, 32, 99])], []) :=
  (attr_value_space_normalization [] (bytes "attr")
    [32, 13, 9, 10, 10, 32, 97, 98, 38, 35, 120, 68, 59, 32, 32, 32, 99, 10, 32, 32]
    [97, 98, 13, 32, 99] rfl rfl (by decide)).2.1

theorem getData_lt_length {doc : Document} {id : Nat} {d : ElementData}
    (h : getData doc id = some d) : id < doc.store.length := by
  by_contra hc
  rw [getData, List.getElem?_eq_none (le_of_not_lt hc)] at h
  exact Option.noConfusion h

theorem getData_setData_self {doc : Document} {id : Nat} {d : ElementData}
    (x : ElementData) (h : getData doc id = some d) :
    getData (setData doc id x) id = some x := by
  simp [getData, setData, List.getElem?_set_self', getData_lt_length h]

theorem getData_setData_ne {doc : Document} {i j : Nat} (x : ElementData) (h : i ≠ j) :
    getData (setData doc i x) j = getData doc j := by
  simp [getData, setData, List.getElem?_set_ne h]

theorem getData_modifyData_self {doc : Document} {id : Nat} {d : ElementData}
    (f : ElementData → ElementData) (h : getData doc id = some d) :
    getData (modifyData doc id f) id = some (f d) := by
  rw [modifyData, h]
  exact getData_setData_self _ h

theorem getData_modifyData_ne {doc : Document} {i j : Nat}
    (f : ElementData → ElementData) (h : i ≠ j) :
    getData (modifyData doc i f) j = getData doc j := by
  unfold modifyData
  cases hg : getData doc i with
  | none => rfl
  | some d => exact getData_setData_ne _ h

/-- The `escape_ascii` rendering of a byte string is the string itself when
every byte is printable ASCII other than backslash and the two quote bytes. -/
theorem escapeAscii_id_of_plain (content : Str)
    (h : ∀ b ∈ content, 32 ≤ b ∧ b ≤ 126 ∧ b ≠ 92 ∧ b ≠ 39 ∧ b ≠ 34) :
    escapeAscii content = content := by
  induction content with
  | nil => rfl
  | cons b r ih =>
    obtain ⟨h1, h2, h3, h4, h5⟩ := h b (by simp)
    have hb : escapeAsciiByte b = [b] := by
      unfold escapeAsciiByte
      rw [if_neg (by omega), if_neg (by omega), if_neg (by omega), if_neg h3,
        if_neg h4, if_neg h5, if_pos (by simp [h1, h2])]
    simp [escapeAscii, hb]
    simpa [escapeAscii] using ih (fun c hc => h c (by simp [hc]))

/-- C5 counterexample: a comment event whose content is one backslash byte
(`[92]`) is stored with payload `[92, 92]` — `escape_ascii` doubles the
backslash — not verbatim; and on serialization a comment payload `<` is
written as `&lt;`, not verbatim. -/
theorem comment_not_verbatim :
    (handleEvent ReadOptions.default initialPState (.Comment [92])).map
        (fun st => childrenOf st.1.doc 0) = .ok [.Comment [92, 92]] ∧
    ([92, 92] : Str) ≠ [92] ∧
    writeNodes Document.new 1 [.Comment (bytes "<")] = [.comment (bytes "&lt;")] ∧
    bytes "&lt;" ≠ bytes "<" :=
  ⟨rfl, by decide, rfl, by decide⟩

/-- C5 amended: the parser stores CDATA and processing-instruction payloads
verbatim from the event content and entity-unescapes text, but stores a
comment as the `escape_ascii` rendering of the event bytes (which equals the
content precisely on printable ASCII free of backslashes and quotes); on
serialization CDATA and PI payloads are written verbatim while comment
payloads pass through XML entity escaping. -/
theorem payload_transformations (opts : ReadOptions) (st : PState) (parent : Nat)
    (doc : Document) (fuel : Nat) (content unesc : Str)
    (hstack : st.stack.head? = some parent)
    (hun : unescapeBytes content = .ok unesc) :
    handleEvent opts st (.CData content) =
      .ok ({ st with doc := (pushChild st.doc parent (.CData content)).2 }, false) ∧
    handleEvent opts st (.PI content) =
      .ok ({ st with doc := (pushChild st.doc parent (.PI content)).2 }, false) ∧
    handleEvent opts st (.Comment content) =
      .ok ({ st with doc := (pushChild st.doc parent (.Comment (escapeAscii content))).2 },
        false) ∧
    (opts.ignoreWhitespaceOnly = false → content ≠ [] →
      handleEvent opts st (.Text content) =
        .ok ({ st with doc := (pushChild st.doc parent (.Text unesc)).2 }, false)) ∧
    ((∀ b ∈ content, 32 ≤ b ∧ b ≤ 126 ∧ b ≠ 92 ∧ b ≠ 39 ∧ b ≠ 34) →
      escapeAscii content = content) ∧
    writeNodes doc fuel [.CData content] = [.cdata content] ∧
    writeNodes doc fuel [.PI content] = [.pi content] ∧
    writeNodes doc fuel [.Comment content] = [.comment (escapeXml content)] := by
  refine ⟨?_, ?_, ?_, ?_, escapeAscii_id_of_plain content, ?_, ?_, ?_⟩
  · simp [handleEvent, hstack]
  · simp [handleEvent, hstack]
  · simp [handleEvent, hstack]
  · intro hiwo hne
    simp [handleEvent, hiwo, hun, hstack, List.isEmpty_iff, hne]
  · cases fuel <;> simp [writeNodes, leafEvents]
  · cases fuel <;> simp [writeNodes, leafEvents]
  · cases fuel <;> simp [writeNodes, leafEvents]

/-- Witness for C5 amended at concrete inputs: the CDATA payload `<&amp;`
stays verbatim through the parser (the repo's own `test_parse` expectation)
and a plain-ASCII comment payload stays verbatim. -/
theorem payload_transformations_witness :
    handleEvent ReadOptions.default initialPState (.CData (bytes "<&amp;")) =
      .ok ({ initialPState with
              doc := (pushChild initialPState.doc 0 (.CData (bytes "<&amp;"))).2 }, false) ∧
    escapeAscii (bytes "cmt") = bytes "cmt" :=
  ⟨(payload_transformations ReadOptions.default initialPState 0 Document.new 1
      (bytes "<&amp;") (bytes "<&") rfl rfl).1,
    (payload_transformations ReadOptions.default initialPState 0 Document.new 1
      (bytes "cmt") (bytes "cmt") rfl rfl).2.2.2.2.1 (by decide)⟩

/-- C7: with `empty_text_node` enabled, handling an end tag pops the element
stack and inserts a single empty text child exactly when the popped element
has no children (an element with children is left unchanged); the serializer
writes a self-closing empty tag exactly when the element has no children;
and therefore the parses of `<a></a>` (Start then End) and `<a />` (Empty)
serialize to a start/empty-text/end sequence and to one self-closing tag
respectively. -/
theorem empty_text_node_distinguishes (opts : ReadOptions) (st : PState)
    (top : Nat) (rest : List Nat) (d : ElementData) (doc : Document) (fuel id : Nat)
    (dd : ElementData)
    (hopts : opts.emptyTextNode = true)
    (hstack : st.stack = top :: rest)
    (hget : getData st.doc top = some d)
    (hgid : getData doc id = some dd) :
    (d.children = [] →
      (handleEvent opts st .End).map (fun r => (childrenOf r.1.doc top, r.1.stack, r.2)) =
        .ok ([.Text []], rest, false)) ∧
    (d.children ≠ [] →
      handleEvent opts st .End = .ok ({ st with stack := rest }, false)) ∧
    (dd.children = [] →
      writeElement doc (fuel + 1) id = [.empty dd.fullName (startAttrs dd)]) ∧
    (dd.children ≠ [] →
      writeElement doc (fuel + 1) id =
        [.start dd.fullName (startAttrs dd)] ++ writeNodes doc fuel dd.children
          ++ [.endTag dd.fullName]) ∧
    ((handleEvent ReadOptions.default initialPState (.Start (bytes "a") [])).bind
        (fun r => handleEvent ReadOptions.default r.1 .End)).map
        (fun r => writeElement r.1.doc 2 1) =
      .ok [.start (bytes "a") [], .text [], .endTag (bytes "a")] ∧
    (handleEvent ReadOptions.default initialPState (.Empty (bytes "a") [])).map
        (fun r => writeElement r.1.doc 2 1) =
      .ok [.empty (bytes "a") []] := by
  refine ⟨?_, ?_, ?_, ?_, rfl, rfl⟩
  · intro hchild
    have h1 : childrenOf st.doc top = [] := by simp [childrenOf, hget, hchild]
    have h2 : getData (modifyData st.doc top
        (fun p => { p with children := p.children ++ [Node.Text []] })) top =
        some { d with children := d.children ++ [Node.Text []] } :=
      getData_modifyData_self _ hget
    simp [handleEvent, hstack, hopts, hget, hchild, childrenOf, pushChild, h2, Except.map]
  · intro hchild
    have h1 : (childrenOf st.doc top).isEmpty = false := by
      simp [childrenOf, hget, List.isEmpty_iff, hchild]
    simp [handleEvent, hstack, h1]
  · intro hchild
    simp [writeElement, writeNodes, hgid, hchild]
  · intro hchild
    simp [writeElement, writeNodes, hgid, List.isEmpty_iff, hchild]

/-- Witness for C7 at a concrete state: popping the childless element 1 of
`docA` inserts the empty text child, and element 1 serializes self-closing. -/
theorem empty_text_node_distinguishes_witness :
    (handleEvent ReadOptions.default { doc := docA, stack := [1, 0] } .End).map
        (fun r => (childrenOf r.1.doc 1, r.1.stack, r.2)) =
      .ok ([.Text []], [0], false) ∧
    writeElement docA 1 1 = [.empty (bytes "a") (startAttrs
      { fullName := bytes "a", attributes := [], namespaceDecls := [],
        parent := none, children := [] })] :=
  ⟨(empty_text_node_distinguishes ReadOptions.default { doc := docA, stack := [1, 0] } 1 [0]
      { fullName := bytes "a", attributes := [], namespaceDecls := [],
        parent := none, children := [] }
      docA 0 1
      { fullName := bytes "a", attributes := [], namespaceDecls := [],
        parent := none, children := [] }
      rfl rfl rfl rfl).1 rfl,
    (empty_text_node_distinguishes ReadOptions.default { doc := docA, stack := [1, 0] } 1 [0]
      { fullName := bytes "a", attributes := [], namespaceDecls := [],
        parent := none, children := [] }
      docA 0 1
      { fullName := bytes "a", attributes := [], namespaceDecls := [],
        parent := none, children := [] }
      rfl rfl rfl rfl).2.2.1 rfl⟩

/-- The text-content builder only ever appends to its buffer. -/
theorem buildTextContent_append (doc : Document) (fuel : Nat) :
    ∀ (n : Node) (buf : Str),
      buildTextContent doc fuel n buf = buf ++ buildTextContent doc fuel n [] := by
  induction fuel with
  | zero => intro n buf; cases n <;> simp [buildTextContent]
  | succ fuel ih =>
    intro n buf
    cases n with
    | Element id =>
      simp only [buildTextContent]
      generalize childrenOf doc id = l
      induction l generalizing buf with
      | nil => simp
      | cons c l' ihl =>
        simp only [List.foldl]
        rw [ihl (buildTextContent doc fuel c buf), ihl (buildTextContent doc fuel c []),
          ih c buf]
        simp
    | Text s => simp [buildTextContent]
    | CData s => simp [buildTextContent]
    | PI s => simp [buildTextContent]
    | Comment s => simp [buildTextContent]
    | DocType s => simp [buildTextContent]

/-- The text-content fold over a node list only ever appends to its buffer. -/
theorem foldl_buildTextContent_acc (doc : Document) (fuel : Nat) (l : List Node) :
    ∀ buf : Str, l.foldl (fun b c => buildTextContent doc fuel c b) buf =
      buf ++ l.foldl (fun b c => buildTextContent doc fuel c b) [] := by
  induction l with
  | nil => intro buf; simp
  | cons c l' ihl =>
    intro buf
    simp only [List.foldl]
    rw [ihl (buildTextContent doc fuel c buf), ihl (buildTextContent doc fuel c []),
      buildTextContent_append doc fuel c buf]
    simp

/-- Folding the text-content builder over a node list concatenates the
per-node text contents. -/
theorem foldl_buildTextContent_flatten (doc : Document) (fuel : Nat) (l : List Node) :
    l.foldl (fun b c => buildTextContent doc fuel c b) [] =
      (l.map (fun c => nodeTextContent doc fuel c)).flatten := by
  induction l with
  | nil => rfl
  | cons c l' ihl =>
    simp only [List.foldl, List.map, List.flatten]
    rw [foldl_buildTextContent_acc doc fuel l' (buildTextContent doc fuel c []), ihl]
    simp [nodeTextContent]

/-- C10: an element's `text_content` is the concatenation, over its children
in order, of the per-node text content, which keeps `Text`, `CData` and `PI`
payloads, contributes the empty string for `Comment` and `DocType` nodes,
and recurses into element children. -/
theorem text_content_concatenation (doc : Document) (fuel id : Nat) (d : ElementData)
    (s : Str) (hget : getData doc id = some d) :
    textContent doc (fuel + 1) id =
      (d.children.map (fun c => nodeTextContent doc fuel c)).flatten ∧
    nodeTextContent doc fuel (.Text s) = s ∧
    nodeTextContent doc fuel (.CData s) = s ∧
    nodeTextContent doc fuel (.PI s) = s ∧
    nodeTextContent doc fuel (.Comment s) = [] ∧
    nodeTextContent doc fuel (.DocType s) = [] ∧
    nodeTextContent doc (fuel + 1) (.Element id) = textContent doc (fuel + 1) id := by
  refine ⟨?_, by simp [nodeTextContent, buildTextContent], by simp [nodeTextContent, buildTextContent],
    by simp [nodeTextContent, buildTextContent], by simp [nodeTextContent, buildTextContent],
    by simp [nodeTextContent, buildTextContent], rfl⟩
  have hc : childrenOf doc id = d.children := by simp [childrenOf, hget]
  simp only [textContent, buildTextContent, hc]
  exact foldl_buildTextContent_flatten doc fuel d.children

/-- Witness for C10: the text content of the root of `textTestDoc`
concatenates its text, CDATA and PI payloads and its element child's text,
skipping the comment and the doctype: `A`, `B`, `C`, then `D`. -/
theorem text_content_concatenation_witness :
    textContent textTestDoc 2 1 =
      (([.Text (bytes "A"), .CData (bytes "B"), .PI (bytes "C"),
          .Comment (bytes "X"), .DocType (bytes "Y"), .Element 2] : List Node).map
        (fun c => nodeTextContent textTestDoc 1 c)).flatten ∧
    textContent textTestDoc 2 1 = bytes "ABCD" :=
  ⟨(text_content_concatenation textTestDoc 1 1
      { fullName := bytes "r", attributes := [], namespaceDecls := [],
        parent := some 0,
        children := [.Text (bytes "A"), .CData (bytes "B"), .PI (bytes "C"),
          .Comment (bytes "X"), .DocType (bytes "Y"), .Element 2] }
      [] rfl).1,
    by decide⟩

/-- C3: `namespace_for_prefix` returns the fixed URI
`http://www.w3.org/XML/1998/namespace` for prefix `xml` and
`http://www.w3.org/2000/xmlns/` for prefix `xmlns` regardless of document
content; for any other prefix it returns the declaration of the first
element on the parent walk that declares the prefix, and `none` when the
walk reaches a parentless element without a match. -/
theorem namespace_resolution (doc : Document) (fuel id : Nat) (pfx : Str)
    (l : List Nat) :
    namespaceForPfx doc fuel id (bytes "xml") = some xmlURI ∧
    namespaceForPfx doc fuel id (bytes "xmlns") = some xmlnsURI ∧
    (ParentChain doc id l → l.length ≤ fuel → pfx ≠ bytes "xml" → pfx ≠ bytes "xmlns" →
      namespaceForPfx doc fuel id pfx = chainFirstDecl doc l pfx) := by
  refine ⟨by rw [namespaceForPfx, if_pos rfl], ?_, ?_⟩
  · rw [namespaceForPfx, if_neg (by decide), if_pos rfl]
  · intro hchain hfuel hxml hxmlns
    rw [namespaceForPfx, if_neg hxml, if_neg hxmlns]
    clear hxml hxmlns
    induction hchain generalizing fuel with
    | last i d hget hpar =>
      obtain ⟨f, rfl⟩ : ∃ f, fuel = f + 1 := by
        cases fuel with
        | zero => simp at hfuel
        | succ f => exact ⟨f, rfl⟩
      cases hal : alGet d.namespaceDecls pfx with
      | some v => simp [nsLookupLoop, hget, hal, chainFirstDecl]
      | none => simp [nsLookupLoop, hget, hal, hpar, chainFirstDecl]
    | step i d p l hget hpar htail ih =>
      obtain ⟨f, rfl⟩ : ∃ f, fuel = f + 1 := by
        cases fuel with
        | zero => simp at hfuel
        | succ f => exact ⟨f, rfl⟩
      have hlen : l.length ≤ f := by simpa using hfuel
      cases hal : alGet d.namespaceDecls pfx with
      | some v => simp [nsLookupLoop, hget, hal, chainFirstDecl]
      | none =>
        simp only [nsLookupLoop, hget, hal, hpar, ih f hlen, chainFirstDecl]
        simp [List.findSome?, hget, hal]

/-- Witness for C3 on the spec's namespace example: resolving prefix `p`
from element `c` (handle 4) walks the chain c, bar, root, container and
returns `in2`, the innermost redeclaration of `p`. -/
theorem namespace_resolution_witness :
    namespaceForPfx nsTestDoc 10 4 (bytes "p") =
      chainFirstDecl nsTestDoc [4, 3, 1, 0] (bytes "p") ∧
    chainFirstDecl nsTestDoc [4, 3, 1, 0] (bytes "p") = some (bytes "in2") :=
  ⟨(namespace_resolution nsTestDoc 10 4 (bytes "p") [4, 3, 1, 0]).2.2
      (ParentChain.step 4 ⟨bytes "c", [], [], some 3, []⟩ 3 [3, 1, 0] rfl rfl
        (ParentChain.step 3
          ⟨bytes "p:bar", [], [(bytes "p", bytes "in2")], some 1, [.Element 4]⟩ 1 [1, 0]
          rfl rfl
          (ParentChain.step 1
            ⟨bytes "root", [], [(bytes "", bytes "ns"), (bytes "p", bytes "pns")], some 0,
              [.Element 2, .Element 3]⟩ 0 [0] rfl rfl
            (ParentChain.last 0 ⟨[], [], [], none, [.Element 1]⟩ rfl rfl))))
      (by decide) (by decide) (by decide),
    by decide⟩

/-- C1: in any document satisfying the store invariant, `push_child` and
`insert_child` with an element that already has a parent fail with
`HasAParent` under any target parent and leave the document unchanged; after
a successful `detach` of that element (which is listed among its parent's
children), the same push succeeds. -/
theorem has_a_parent_rejected (doc : Document) (eid q target index : Nat)
    (d dq : ElementData)
    (hInv : Inv doc)
    (hget : getData doc eid = some d)
    (hpar : d.parent = some q)
    (hq : getData doc q = some dq)
    (hmem : Node.Element eid ∈ dq.children) :
    pushChild doc target (.Element eid) = (.error .HasAParent, doc) ∧
    insertChild doc target index (.Element eid) = (.error .HasAParent, doc) ∧
    (detach doc eid).1 = .ok () ∧
    (pushChild (detach doc eid).2 target (.Element eid)).1 = .ok () := by
  obtain ⟨_, d0, h0, h0p⟩ := hInv
  have hne : eid ≠ 0 := by
    intro h
    subst h
    rw [getData] at hget
    rw [h0] at hget
    have hd : d0 = d := Option.some.inj hget
    rw [← hd, h0p] at hpar
    exact Option.noConfusion hpar
  have hchildren : childrenOf doc q = dq.children := by simp [childrenOf, hq]
  obtain ⟨pos, hfind⟩ : ∃ pos,
      (childrenOf doc q).findIdx? (fun n => n.asElement = some eid) = some pos := by
    cases hf : (childrenOf doc q).findIdx? (fun n => n.asElement = some eid) with
    | some pos => exact ⟨pos, rfl⟩
    | none =>
      have := List.findIdx?_eq_none_iff.mp hf (Node.Element eid)
        (by rw [hchildren]; exact hmem)
      simp [Node.asElement] at this
  obtain ⟨hlt, hfi⟩ := List.findIdx?_eq_some_iff_findIdx_eq.mp hfind
  have hw : (childrenOf doc q).findIdx (fun n => n.asElement = some eid) <
      (childrenOf doc q).length := by rw [hfi]; exact hlt
  have hgetn : (childrenOf doc q)[pos]? = some (Node.Element eid) := by
    have hph := @List.findIdx_getElem _
      (fun n => decide (n.asElement = some eid)) (childrenOf doc q) hw
    have hnode : (childrenOf doc q)[(childrenOf doc q).findIdx
        (fun n => n.asElement = some eid)] = Node.Element eid := by
      cases hn : (childrenOf doc q)[(childrenOf doc q).findIdx
          (fun n => n.asElement = some eid)] with
      | Element idx =>
        rw [hn] at hph
        simp [Node.asElement] at hph
        rw [hph]
      | Text s => rw [hn] at hph; simp [Node.asElement] at hph
      | Comment s => rw [hn] at hph; simp [Node.asElement] at hph
      | CData s => rw [hn] at hph; simp [Node.asElement] at hph
      | PI s => rw [hn] at hph; simp [Node.asElement] at hph
      | DocType s => rw [hn] at hph; simp [Node.asElement] at hph
    have hsome : (childrenOf doc q)[(childrenOf doc q).findIdx
        (fun n => n.asElement = some eid)]? = some (Node.Element eid) :=
      List.getElem?_eq_some_iff.mpr ⟨hw, hnode⟩
    rw [hfi] at hsome
    exact hsome
  have hdetach : detach doc eid = (.ok (), (removeChild doc q pos).2) := by
    simp [detach, hne, hget, hpar, hfind]
  obtain ⟨d2, hd2, hd2p⟩ : ∃ d2,
      getData (removeChild doc q pos).2 eid = some d2 ∧ d2.parent = none := by
    have hrc : (removeChild doc q pos).2 =
        modifyData (modifyData doc q
            (fun p => { p with children := p.children.eraseIdx pos })) eid
          (fun e => { e with parent := none }) := by
      simp [removeChild, hgetn]
    rw [hrc]
    by_cases heq : q = eid
    · subst heq
      have h1 := getData_modifyData_self
        (fun p => { p with children := p.children.eraseIdx pos }) hq
      exact ⟨_, getData_modifyData_self _ h1, rfl⟩
    · have h1 : getData (modifyData doc q
          (fun p => { p with children := p.children.eraseIdx pos })) eid = some d := by
        rw [getData_modifyData_ne _ heq]; exact hget
      exact ⟨_, getData_modifyData_self _ h1, rfl⟩
  refine ⟨by simp [pushChild, hne, hget, hpar], by simp [insertChild, hne, hget, hpar],
    by rw [hdetach], ?_⟩
  rw [hdetach]
  simp [pushChild, hne, hd2, hd2p]

/-- Witness for C1 at a concrete document: in `textTestDoc` element 2 has
parent 1; pushing it under the container fails with `HasAParent` and leaves
the document unchanged, and after a detach the same push reports success. -/
theorem has_a_parent_rejected_witness :
    pushChild textTestDoc 0 (.Element 2) = (.error .HasAParent, textTestDoc) ∧
    (pushChild (detach textTestDoc 2).2 0 (.Element 2)).1 = .ok () :=
  ⟨(has_a_parent_rejected textTestDoc 2 1 0 0
      { fullName := bytes "k", attributes := [], namespaceDecls := [],
        parent := some 1, children := [.Text (bytes "D")] }
      { fullName := bytes "r", attributes := [], namespaceDecls := [],
        parent := some 0,
        children := [.Text (bytes "A"), .CData (bytes "B"), .PI (bytes "C"),
          .Comment (bytes "X"), .DocType (bytes "Y"), .Element 2] }
      ⟨rfl, ⟨[], [], [], none, [.Element 1]⟩, rfl, rfl⟩ rfl rfl rfl (by decide)).1,
    (has_a_parent_rejected textTestDoc 2 1 0 0
      { fullName := bytes "k", attributes := [], namespaceDecls := [],
        parent := some 1, children := [.Text (bytes "D")] }
      { fullName := bytes "r", attributes := [], namespaceDecls := [],
        parent := some 0,
        children := [.Text (bytes "A"), .CData (bytes "B"), .PI (bytes "C"),
          .Comment (bytes "X"), .DocType (bytes "Y"), .Element 2] }
      ⟨rfl, ⟨[], [], [], none, [.Element 1]⟩, rfl, rfl⟩ rfl rfl rfl (by decide)).2.2.2⟩

theorem Inv_setData_ne (doc : Document) (id : Nat) (x : ElementData)
    (h : Inv doc) (hid : id ≠ 0) : Inv (setData doc id x) := by
  obtain ⟨hc, d0, h0, h0p⟩ := h
  refine ⟨by simp [setData, hc], d0, ?_, h0p⟩
  show (doc.store.set id x)[0]? = some d0
  rw [List.getElem?_set_ne hid]
  exact h0

theorem Inv_modifyData_of_parent (doc : Document) (id : Nat)
    (f : ElementData → ElementData) (h : Inv doc)
    (hf : ∀ e, (f e).parent = e.parent ∨ (f e).parent = none) :
    Inv (modifyData doc id f) := by
  unfold modifyData
  cases hg : getData doc id with
  | none => exact h
  | some d =>
    by_cases hid : id = 0
    · subst hid
      obtain ⟨hc, d0, h0, h0p⟩ := h
      have hd : d = d0 := by
        rw [getData] at hg
        rw [h0] at hg
        exact (Option.some.inj hg).symm
      have hlen : 0 < doc.store.length := getData_lt_length (show getData doc 0 = some d from hg)
      refine ⟨by simp [setData, hc], f d, ?_, ?_⟩
      · show (doc.store.set 0 (f d))[0]? = some (f d)
        simp [List.getElem?_set_self', hlen]
      · rcases hf d with hh | hh
        · rw [hh, hd, h0p]
        · exact hh
    · exact Inv_setData_ne doc id (f d) h hid

theorem Inv_withData (doc : Document) (n : Str) (a ns : AList) (h : Inv doc) :
    Inv (withData doc n a ns).2 := by
  obtain ⟨hc, d0, h0, h0p⟩ := h
  refine ⟨by simp [withData, hc], d0, ?_, h0p⟩
  show (doc.store ++ [_])[0]? = some d0
  rw [List.getElem?_append_left (getData_lt_length (show getData doc 0 = some d0 from h0))]
  exact h0

theorem Inv_pushChild (doc : Document) (parent : Nat) (n : Node) (h : Inv doc) :
    Inv (pushChild doc parent n).2 := by
  cases n with
  | Element eid =>
    by_cases he : eid = 0
    · simpa [pushChild, he] using h
    · cases hg : getData doc eid with
      | none => simpa [pushChild, he, hg] using h
      | some d =>
        by_cases hp : d.parent.isSome
        · simpa [pushChild, he, hg, hp] using h
        · have h1 : Inv (setData doc eid { d with parent := some parent }) :=
            Inv_setData_ne doc eid _ h he
          have h2 := Inv_modifyData_of_parent _ parent
            (fun p => { p with children := p.children ++ [Node.Element eid] }) h1
            (fun e => Or.inl rfl)
          simpa [pushChild, he, hg, hp] using h2
  | Text s =>
    simpa [pushChild] using
      Inv_modifyData_of_parent doc parent
        (fun p => { p with children := p.children ++ [Node.Text s] }) h (fun e => Or.inl rfl)
  | Comment s =>
    simpa [pushChild] using
      Inv_modifyData_of_parent doc parent
        (fun p => { p with children := p.children ++ [Node.Comment s] }) h (fun e => Or.inl rfl)
  | CData s =>
    simpa [pushChild] using
      Inv_modifyData_of_parent doc parent
        (fun p => { p with children := p.children ++ [Node.CData s] }) h (fun e => Or.inl rfl)
  | PI s =>
    simpa [pushChild] using
      Inv_modifyData_of_parent doc parent
        (fun p => { p with children := p.children ++ [Node.PI s] }) h (fun e => Or.inl rfl)
  | DocType s =>
    simpa [pushChild] using
      Inv_modifyData_of_parent doc parent
        (fun p => { p with children := p.children ++ [Node.DocType s] }) h (fun e => Or.inl rfl)

theorem Inv_insertChild (doc : Document) (parent index : Nat) (n : Node) (h : Inv doc) :
    Inv (insertChild doc parent index n).2 := by
  cases n with
  | Element eid =>
    by_cases he : eid = 0
    · simpa [insertChild, he] using h
    · cases hg : getData doc eid with
      | none => simpa [insertChild, he, hg] using h
      | some d =>
        by_cases hp : d.parent.isSome
        · simpa [insertChild, he, hg, hp] using h
        · have h1 : Inv (setData doc eid { d with parent := some parent }) :=
            Inv_setData_ne doc eid _ h he
          by_cases hix : index ≤
              (childrenOf (setData doc eid { d with parent := some parent }) parent).length
          · have h2 := Inv_modifyData_of_parent _ parent
              (fun p => { p with children := p.children.insertIdx index (Node.Element eid) }) h1
              (fun e => Or.inl rfl)
            simpa [insertChild, he, hg, hp, hix] using h2
          · simpa [insertChild, he, hg, hp, hix] using h1
  | Text s =>
    by_cases hix : index ≤ (childrenOf doc parent).length
    · simpa [insertChild, hix] using
        Inv_modifyData_of_parent doc parent
          (fun p => { p with children := p.children.insertIdx index (Node.Text s) }) h
          (fun e => Or.inl rfl)
    · simpa [insertChild, hix] using h
  | Comment s =>
    by_cases hix : index ≤ (childrenOf doc parent).length
    · simpa [insertChild, hix] using
        Inv_modifyData_of_parent doc parent
          (fun p => { p with children := p.children.insertIdx index (Node.Comment s) }) h
          (fun e => Or.inl rfl)
    · simpa [insertChild, hix] using h
  | CData s =>
    by_cases hix : index ≤ (childrenOf doc parent).length
    · simpa [insertChild, hix] using
        Inv_modifyData_of_parent doc parent
          (fun p => { p with children := p.children.insertIdx index (Node.CData s) }) h
          (fun e => Or.inl rfl)
    · simpa [insertChild, hix] using h
  | PI s =>
    by_cases hix : index ≤ (childrenOf doc parent).length
    · simpa [insertChild, hix] using
        Inv_modifyData_of_parent doc parent
          (fun p => { p with children := p.children.insertIdx index (Node.PI s) }) h
          (fun e => Or.inl rfl)
    · simpa [insertChild, hix] using h
  | DocType s =>
    by_cases hix : index ≤ (childrenOf doc parent).length
    · simpa [insertChild, hix] using
        Inv_modifyData_of_parent doc parent
          (fun p => { p with children := p.children.insertIdx index (Node.DocType s) }) h
          (fun e => Or.inl rfl)
    · simpa [insertChild, hix] using h

theorem Inv_removeChild (doc : Document) (parent index : Nat) (h : Inv doc) :
    Inv (removeChild doc parent index).2 := by
  cases hg : (childrenOf doc parent)[index]? with
  | none => simpa [removeChild, hg] using h
  | some nd =>
    have h1 := Inv_modifyData_of_parent doc parent
      (fun p => { p with children := p.children.eraseIdx index }) h (fun e => Or.inl rfl)
    cases nd with
    | Element eid =>
      have h2 := Inv_modifyData_of_parent _ eid
        (fun e => { e with parent := none }) h1 (fun e => Or.inr rfl)
      simpa [removeChild, hg] using h2
    | Text s => simpa [removeChild, hg] using h1
    | Comment s => simpa [removeChild, hg] using h1
    | CData s => simpa [removeChild, hg] using h1
    | PI s => simpa [removeChild, hg] using h1
    | DocType s => simpa [removeChild, hg] using h1

theorem Inv_popChild (doc : Document) (parent : Nat) (h : Inv doc) :
    Inv (popChild doc parent).2 := by
  cases hg : (childrenOf doc parent).getLast? with
  | none => simpa [popChild, hg] using h
  | some nd =>
    have h1 := Inv_modifyData_of_parent doc parent
      (fun p => { p with children := p.children.dropLast }) h (fun e => Or.inl rfl)
    cases nd with
    | Element eid =>
      have h2 := Inv_modifyData_of_parent _ eid
        (fun e => { e with parent := none }) h1 (fun e => Or.inr rfl)
      simpa [popChild, hg] using h2
    | Text s => simpa [popChild, hg] using h1
    | Comment s => simpa [popChild, hg] using h1
    | CData s => simpa [popChild, hg] using h1
    | PI s => simpa [popChild, hg] using h1
    | DocType s => simpa [popChild, hg] using h1

theorem Inv_clearChildrenLoop (parent count : Nat) :
    ∀ doc : Document, Inv doc → Inv (clearChildrenLoop doc parent count).2 := by
  induction count with
  | zero => intro doc h; simpa [clearChildrenLoop] using h
  | succ c ih =>
    intro doc h
    simp only [clearChildrenLoop]
    exact ih _ (Inv_removeChild doc parent 0 h)

theorem Inv_detach (doc : Document) (id : Nat) (h : Inv doc) :
    Inv (detach doc id).2 := by
  by_cases he : id = 0
  · simpa [detach, he] using h
  · cases hg : getData doc id with
    | none => simpa [detach, he, hg] using h
    | some d =>
      cases hp : d.parent with
      | none => simpa [detach, he, hg, hp] using h
      | some q =>
        cases hf : (childrenOf doc q).findIdx? (fun n => n.asElement = some id) with
        | none => simpa [detach, he, hg, hp, hf] using h
        | some pos =>
          simpa [detach, he, hg, hp, hf] using Inv_removeChild doc q pos h

theorem Inv_version_standalone (doc : Document) (v : Str) (s : Option StandaloneValue)
    (h : Inv doc) : Inv { doc with version := v, standalone := s } := by
  obtain ⟨hc, d0, h0, h0p⟩ := h
  exact ⟨hc, d0, h0, h0p⟩

theorem handleDecl_ok_store (doc : Document) (v : Str) (enc : Option Str)
    (st : Option Str) (doc1 : Document) (e1 : Option Enc)
    (hh : handleDecl doc v enc st = .ok (doc1, e1)) :
    doc1.counter = doc.counter ∧ doc1.store = doc.store := by
  unfold handleDecl at hh
  split at hh
  · exact absurd hh (by simp)
  · split at hh
    · obtain ⟨h1, _⟩ := Prod.mk.injEq .. ▸ Except.ok.inj hh
      rw [← h1]
      exact ⟨rfl, rfl⟩
    · split at hh
      · exact absurd hh (by simp)
      · obtain ⟨h1, _⟩ := Prod.mk.injEq .. ▸ Except.ok.inj hh
        rw [← h1]
        exact ⟨rfl, rfl⟩

theorem Inv_createElement (opts : ReadOptions) (doc : Document) (parent : Nat)
    (name : Str) (attrs : List (Str × Str)) (elem : Nat) (doc1 : Document)
    (hh : createElement opts doc parent name attrs = .ok (elem, doc1)) (h : Inv doc) :
    Inv doc1 := by
  unfold createElement at hh
  split at hh
  · exact absurd hh (by simp)
  · rename_i xres attrsA nsA hattrs
    split at hh
    rename_i xw welem wdoc hwith
    cases hp : pushChild wdoc parent (Node.Element welem) with
    | mk r doc2 =>
      cases r with
      | error e => rw [hp] at hh; exact absurd hh (by simp)
      | ok u =>
        rw [hp] at hh
        simp only [Except.ok.injEq, Prod.mk.injEq] at hh
        obtain ⟨-, h2⟩ := hh
        rw [← h2]
        have hw : Inv (withData doc name attrsA nsA).2 := Inv_withData doc name attrsA nsA h
        rw [hwith] at hw
        have hfin := Inv_pushChild wdoc parent (Node.Element welem) hw
        rw [hp] at hfin
        exact hfin

theorem Inv_handleEvent (opts : ReadOptions) (st : PState) (ev : Event)
    (st1 : PState) (b : Bool)
    (hh : handleEvent opts st ev = .ok (st1, b)) (h : Inv st.doc) :
    Inv st1.doc := by
  cases ev with
  | Start name attrs =>
    simp only [handleEvent] at hh
    split at hh
    · exact absurd hh (by simp)
    · rename_i parent hpd
      split at hh
      · exact absurd hh (by simp)
      · rename_i elem1 doc1 hc
        simp only [Except.ok.injEq, Prod.mk.injEq] at hh
        obtain ⟨h1, -⟩ := hh
        rw [← h1]
        exact Inv_createElement opts st.doc parent name attrs elem1 doc1 hc h
  | End =>
    simp only [handleEvent] at hh
    split at hh
    · exact absurd hh (by simp)
    · split at hh
      · simp only [Except.ok.injEq, Prod.mk.injEq] at hh
        obtain ⟨h1, -⟩ := hh
        rw [← h1]
        exact Inv_pushChild st.doc _ (.Text []) h
      · simp only [Except.ok.injEq, Prod.mk.injEq] at hh
        obtain ⟨h1, -⟩ := hh
        rw [← h1]
        exact h
  | Empty name attrs =>
    simp only [handleEvent] at hh
    split at hh
    · exact absurd hh (by simp)
    · rename_i parent hpd
      split at hh
      · exact absurd hh (by simp)
      · rename_i elem1 doc1 hc
        simp only [Except.ok.injEq, Prod.mk.injEq] at hh
        obtain ⟨h1, -⟩ := hh
        rw [← h1]
        exact Inv_createElement opts st.doc parent name attrs elem1 doc1 hc h
  | Text content =>
    simp only [handleEvent] at hh
    split at hh
    · simp only [Except.ok.injEq, Prod.mk.injEq] at hh
      obtain ⟨h1, -⟩ := hh
      rw [← h1]; exact h
    · split at hh
      · simp only [Except.ok.injEq, Prod.mk.injEq] at hh
        obtain ⟨h1, -⟩ := hh
        rw [← h1]; exact h
      · split at hh
        · exact absurd hh (by simp)
        · rename_i unesc hu
          split at hh
          · exact absurd hh (by simp)
          · rename_i parent hpd
            simp only [Except.ok.injEq, Prod.mk.injEq] at hh
            obtain ⟨h1, -⟩ := hh
            rw [← h1]
            exact Inv_pushChild st.doc parent (.Text unesc) h
  | DocType content =>
    simp only [handleEvent] at hh
    split at hh
    · exact absurd hh (by simp)
    · rename_i raw hu
      split at hh
      · exact absurd hh (by simp)
      · rename_i parent hpd
        simp only [Except.ok.injEq, Prod.mk.injEq] at hh
        obtain ⟨h1, -⟩ := hh
        rw [← h1]
        exact Inv_pushChild st.doc parent (.DocType _) h
  | Comment content =>
    simp only [handleEvent] at hh
    split at hh
    · exact absurd hh (by simp)
    · rename_i parent hpd
      simp only [Except.ok.injEq, Prod.mk.injEq] at hh
      obtain ⟨h1, -⟩ := hh
      rw [← h1]
      exact Inv_pushChild st.doc parent (.Comment (escapeAscii content)) h
  | CData content =>
    simp only [handleEvent] at hh
    split at hh
    · exact absurd hh (by simp)
    · rename_i parent hpd
      simp only [Except.ok.injEq, Prod.mk.injEq] at hh
      obtain ⟨h1, -⟩ := hh
      rw [← h1]
      exact Inv_pushChild st.doc parent (.CData content) h
  | PI content =>
    simp only [handleEvent] at hh
    split at hh
    · exact absurd hh (by simp)
    · rename_i parent hpd
      simp only [Except.ok.injEq, Prod.mk.injEq] at hh
      obtain ⟨h1, -⟩ := hh
      rw [← h1]
      exact Inv_pushChild st.doc parent (.PI content) h
  | Decl v e s => exact absurd hh (by simp [handleEvent])
  | Eof =>
    simp only [handleEvent, Except.ok.injEq, Prod.mk.injEq] at hh
    obtain ⟨he, -⟩ := hh
    rw [← he]; exact h

theorem Inv_applyOp (doc : Document) (op : Op) (h : Inv doc) : Inv (applyOp doc op) := by
  cases op with
  | newElement n a ns => exact Inv_withData doc n a ns h
  | pushChild parent n => exact Inv_pushChild doc parent n h
  | insertChild parent index n => exact Inv_insertChild doc parent index n h
  | removeChild parent index => exact Inv_removeChild doc parent index h
  | popChild parent => exact Inv_popChild doc parent h
  | clearChildren parent => exact Inv_clearChildrenLoop parent _ doc h
  | detach id => exact Inv_detach doc id h
  | setFullName id s =>
    exact Inv_modifyData_of_parent doc id _ h (fun e => Or.inl rfl)
  | setAttribute id k v =>
    exact Inv_modifyData_of_parent doc id _ h (fun e => Or.inl rfl)
  | setNamespaceDecl id k v =>
    exact Inv_modifyData_of_parent doc id _ h (fun e => Or.inl rfl)
  | handleDecl v enc st =>
    simp only [applyOp]
    split
    · rename_i doc1 e1 hh
      obtain ⟨hc, hs⟩ := handleDecl_ok_store doc v enc st doc1 e1 hh
      obtain ⟨hc0, d0, h0, h0p⟩ := h
      exact ⟨by rw [hc, hs]; exact hc0, d0, by rw [hs]; exact h0, h0p⟩
    · exact h
  | handleEvent opts stack ev =>
    simp only [applyOp]
    split
    · rename_i st1 b2 hh
      exact Inv_handleEvent opts { doc := doc, stack := stack } ev st1 b2 hh h
    · exact h

/-- C9: every document reachable from `Document::new` or
`new_with_store_size` by any sequence of public operations — element
creation, tree mutations, declaration recording, and parser event steps
with any element stack — satisfies the store invariant: `store.len()`
equals `counter`, index 0 exists, and the container record at index 0 has
no parent. -/
theorem store_invariant_reachable (ops : List Op) (k : Nat) :
    Inv (applyOps Document.new ops) ∧ Inv (applyOps (Document.newWithStoreSize k) ops) := by
  have hnew : Inv Document.new := ⟨rfl, containerData, rfl, rfl⟩
  have hall : ∀ (l : List Op) (doc : Document), Inv doc → Inv (applyOps doc l) := by
    intro l
    induction l with
    | nil => intro doc h; exact h
    | cons op l' ih =>
      intro doc h
      exact ih (applyOp doc op) (Inv_applyOp doc op h)
  exact ⟨hall ops Document.new hnew, hall ops (Document.newWithStoreSize k) hnew⟩

/-- Witness for C4 amended: `xmlns:p="u"` files `u` under prefix `p` in the
namespace map, and `id="u"` stays an ordinary attribute. -/
theorem attr_xmlns_split_rule_witness :
    elementAttributes false [(bytes "xmlns:p", bytes "u")] =
      .ok ([], [(bytes "p", bytes "u")]) ∧
    elementAttributes false [(bytes "id", bytes "u")] =
      .ok ([(bytes "id", bytes "u")], []) :=
  ⟨(attr_xmlns_split_rule false (bytes "xmlns:p") (bytes "u") (bytes "u") rfl).1
      (bytes "xmlns") (bytes "p") rfl (by decide),
    (attr_xmlns_split_rule false (bytes "id") (bytes "u") (bytes "u") rfl).2.2.2.2
      rfl (by decide)⟩

end EditXml
